import Mathlib

/-!
# MapReduce engine (`mapreduce.h`): a shallow embedding

The development follows `src/mapreduce.h`:

* `KeyValue` with its two stream operators (`operator<<`, `operator>>`);
* `MapReduce::split_file`, the splitter;
* the map phase of `MapReduce::run`;
* `MapReduce::combiner`;
* `MapReduce::shuffle`.

Files are lists of characters.  The behaviour of the C++ stream library that the
code relies on is embedded together with the code (C++11 and later, [istream]):

* a text input stream (`IStream`) is its unread suffix plus `eofbit` and `failbit`;
  formatted extraction first runs the `sentry` (which skips white space, sets
  `eofbit | failbit` when the file ends there, and sets `failbit` on a stream that is not
  `good()`), `operator>>(std::string&)` takes the maximal run of non-space characters,
  `operator>>(int&)` takes an optional sign and the maximal run of decimal digits, stores
  `0` when there is no digit and the nearest `int` bound when the number does not fit,
  setting `failbit` in both cases; an extraction whose sentry fails leaves its variable
  unchanged;
* a binary input stream with positions (`IfStream`) is used by `split_file`:
  `seekg` clears `eofbit` only and does not move a stream whose `failbit` is set, `get`
  sets `eofbit | failbit` at end of file and only `failbit` on a stream that is not good,
  `tellg` returns `pos_type(-1)` when `fail()` holds.

Integers: `int` is 32 bit two's complement and `size_t` is 64 bit; an `int` overflow in
`value++`, an access to `back()` of an empty list, a dereferenced `end()` iterator and a
division by zero are undefined behaviour (`Run.undefined`).  Loops that need not terminate
take an iteration budget and yield `Run.nofuel` when it is used up.  File sizes and offsets
(`size_t`, `streamoff`) are natural numbers.
-/

namespace MapReduce

/-! ## Outcomes -/

/-- Outcome of running a piece of the program: it returns `a`, or it executes undefined
behaviour, or the iteration budget given to one of its loops is used up. -/
inductive Run (α : Type) where
  | done (a : α) : Run α
  | undefined : Run α
  | nofuel : Run α
deriving DecidableEq

/-- Apply a function to the value a run returns. -/
def Run.map {α β : Type} (f : α → β) : Run α → Run β
  | .done a => .done (f a)
  | .undefined => .undefined
  | .nofuel => .nofuel

/-! ## Characters, strings, `int` -/

/-- The test `std::isspace` in the "C" locale: space, `\t`, `\n`, `\v`, `\f`, `\r`. -/
def isspace (c : Char) : Bool :=
  c = ' ' || c = '\t' || c = '\n' || c = '\x0b' || c = '\x0c' || c = '\r'

/-- Decimal digit test used by `num_get` in base 10. -/
def isdigit (c : Char) : Bool :=
  '0'.toNat ≤ c.toNat && c.toNat ≤ '9'.toNat

/-- The character of a decimal digit `d < 10`. -/
def digitChar (d : Nat) : Char :=
  Char.ofNat ('0'.toNat + d)

/-- Value of a decimal digit character. -/
def digitVal (c : Char) : Nat :=
  c.toNat - '0'.toNat

/-- The bound `std::numeric_limits<int>::max()`. -/
def INT_MAX : Int := 2147483647

/-- The bound `std::numeric_limits<int>::min()`. -/
def INT_MIN : Int := -2147483648

/-- Conversion of a `size_t` quotient to `int` (`int r_file_size = total_size / reducers_count`):
the value modulo `2^32`, read as two's complement. -/
def toInt32 (n : Nat) : Int :=
  if n % 4294967296 < 2147483648 then (n % 4294967296 : Nat) else (n % 4294967296 : Nat) - 4294967296

/-- The order `std::string::operator<`: lexicographic comparison of the character codes, a proper
prefix being smaller. -/
def strLt : List Char → List Char → Bool
  | [], [] => false
  | [], _ :: _ => true
  | _ :: _, [] => false
  | a :: as, b :: bs =>
    if a.toNat < b.toNat then true
    else if b.toNat < a.toNat then false
    else strLt as bs

/-! ## `struct Block`, `struct KeyValue` -/

/-- The type `struct Block { size_t from; size_t to; }`. -/
structure Block where
  from_ : Nat
  to_ : Nat
deriving DecidableEq

/-- The type `struct KeyValue { std::string key; int value; }`. -/
structure KeyValue where
  key : List Char
  value : Int
deriving DecidableEq

/-! ## Output: `operator<<` -/

/-- The digit loop of `num_put` (`do { *--buf = '0' + v % 10; v /= 10; } while (v != 0)`),
with the iteration budget `fuel`. -/
def int_to_char : Nat → Nat → List Char → List Char
  | 0, _, acc => acc
  | fuel + 1, v, acc =>
    if v / 10 = 0 then digitChar (v % 10) :: acc
    else int_to_char fuel (v / 10) (digitChar (v % 10) :: acc)

/-- Decimal text of a natural number. -/
def natToDec (v : Nat) : List Char :=
  int_to_char (v + 1) v []

/-- The text of `os << int`: a minus sign for a negative number, then the decimal digits. -/
def showInt (v : Int) : List Char :=
  if v < 0 then '-' :: natToDec v.natAbs else natToDec v.natAbs

/-- The operator `operator<<(std::ostream&, KeyValue&)`: `os << other.key << " " << other.value`. -/
def showKV (kv : KeyValue) : List Char :=
  kv.key ++ ' ' :: showInt kv.value

/-- The text of `out << kv << "\n"`. -/
def showLine (kv : KeyValue) : List Char :=
  showKV kv ++ ['\n']

/-- A file of records as the code writes it: `out << kv << "\n"` for each record. -/
def encodeFile : List KeyValue → List Char
  | [] => []
  | kv :: kvs => showLine kv ++ encodeFile kvs

/-! ## Input: `operator>>` -/

/-- A text input stream: the unread characters and the two state bits. -/
structure IStream where
  rest : List Char
  eofbit : Bool
  failbit : Bool
deriving DecidableEq

/-- The stream `std::ifstream in(path)` on an existing file with the given content. -/
def IStream.open_ (file : List Char) : IStream :=
  ⟨file, false, false⟩

/-- The test `good()`: no state bit is set. -/
def IStream.good (s : IStream) : Bool :=
  !s.eofbit && !s.failbit

/-- The class `istream::sentry` with `skipws`: on a good stream white space is skipped, and reaching
the end of the file while skipping sets `eofbit | failbit`; on a stream that is not good
`failbit` is set.  The Boolean is the sentry's result. -/
def sentry (s : IStream) : Bool × IStream :=
  if s.good then
    match s.rest.dropWhile isspace with
    | [] => (false, ⟨[], true, true⟩)
    | c :: cs => (true, ⟨c :: cs, false, false⟩)
  else (false, ⟨s.rest, s.eofbit, true⟩)

/-- The extraction `is >> str` for a `std::string` holding `old`: when the sentry succeeds the string is
replaced by the maximal run of non-space characters (`eofbit` when the file ends there),
otherwise it is left unchanged. -/
def readString (s : IStream) (old : List Char) : List Char × IStream :=
  match sentry s with
  | (true, s1) =>
    let str := s1.rest.takeWhile (fun c => !isspace c)
    let r := s1.rest.dropWhile (fun c => !isspace c)
    (str, ⟨r, r.isEmpty, str.isEmpty⟩)
  | (false, s1) => (old, s1)

/-- Value of a run of decimal digits, most significant first (`result = result * 10 + digit`). -/
def digitsValue (ds : List Char) : Nat :=
  ds.foldl (fun acc c => acc * 10 + digitVal c) 0

/-- The sign that `num_get` consumes, if any: whether it is a minus, and the text after it. -/
def readSign : List Char → Bool × List Char
  | [] => (false, [])
  | c :: t => if c = '-' then (true, t) else if c = '+' then (false, t) else (false, c :: t)

/-- The extraction `is >> n` for an `int` holding `old`: when the sentry succeeds, an optional sign and the
maximal run of digits are consumed; no digit stores `0` and sets `failbit`; a number outside
the range of `int` stores the nearest bound and sets `failbit`; `eofbit` is set when the file
ends there.  When the sentry fails the variable is left unchanged. -/
def readInt (s : IStream) (old : Int) : Int × IStream :=
  match sentry s with
  | (true, s1) =>
    let sg := readSign s1.rest
    let ds := sg.2.takeWhile isdigit
    let r := sg.2.dropWhile isdigit
    if ds.isEmpty then (0, ⟨r, r.isEmpty, true⟩)
    else
      let v : Int := if sg.1 then -(digitsValue ds : Int) else (digitsValue ds : Int)
      if v < INT_MIN then (INT_MIN, ⟨r, r.isEmpty, true⟩)
      else if INT_MAX < v then (INT_MAX, ⟨r, r.isEmpty, true⟩)
      else (v, ⟨r, r.isEmpty, false⟩)
  | (false, s1) => (old, s1)

/-- The operator `operator>>(std::istream&, KeyValue&)`:
`other.key = ""; other.value = 0; is >> other.key >> other.value`. -/
def readKV (s : IStream) : KeyValue × IStream :=
  let k := readString s []
  let v := readInt k.2 0
  (⟨k.1, v.1⟩, v.2)

/-- Repeated `in >> kv`, `n` times: the records read, in order, and the stream afterwards. -/
def readN : Nat → IStream → List KeyValue × IStream
  | 0, s => ([], s)
  | n + 1, s =>
    let r := readKV s
    let t := readN n r.2
    (r.1 :: t.1, t.2)

/-! ## `MapReduce::split_file` -/

/-- A binary input stream with a read position (`std::ifstream in(file, std::ios::binary)`). -/
structure IfStream where
  data : List Char
  pos : Nat
  eofbit : Bool
  failbit : Bool
deriving DecidableEq

/-- The test `good()`: no state bit is set. -/
def IfStream.good (s : IfStream) : Bool :=
  !s.eofbit && !s.failbit

/-- The call `in.seekg(p)`: `eofbit` is cleared first; on a stream whose `failbit` is set the sentry
fails and the position is not changed; otherwise the read position becomes `p`. -/
def IfStream.seekg (s : IfStream) (p : Nat) : IfStream :=
  if s.failbit then ⟨s.data, s.pos, false, true⟩ else ⟨s.data, p, false, false⟩

/-- The call `in.get()`: the next character, or `none` for `EOF`.  At end of file `eofbit | failbit`
is set; on a stream that is not good the sentry fails and only `failbit` is set. -/
def IfStream.get (s : IfStream) : Option Char × IfStream :=
  if s.good then
    match s.data[s.pos]? with
    | some c => (some c, ⟨s.data, s.pos + 1, false, false⟩)
    | none => (none, ⟨s.data, s.pos, true, true⟩)
  else (none, ⟨s.data, s.pos, s.eofbit, true⟩)

/-- The call `in.tellg()`: the read position, or `-1` when the stream is not good (the sentry then
sets `failbit` and `fail()` holds). -/
def IfStream.tellg (s : IfStream) : Int × IfStream :=
  if s.good then ((s.pos : Int), s) else (-1, ⟨s.data, s.pos, s.eofbit, true⟩)

/-- Conversion of the stream position returned by `tellg` to `size_t` (64 bit): `-1` becomes
`2^64 - 1`, a file offset is unchanged. -/
def toSizeT (x : Int) : Nat :=
  if 0 ≤ x then x.toNat else (x + 18446744073709551616).toNat

/-- The scan `while (in.get() != '\n' && !in.eof());` with an iteration budget. -/
def scan_line : Nat → IfStream → Run IfStream
  | 0, _ => .nofuel
  | fuel + 1, s =>
    if (s.get.1 != some '\n') && !s.get.2.eofbit then scan_line fuel s.get.2
    else .done s.get.2

/-- The body of `for (auto n = 0; n < mappers_count; n++)` in `split_file`, for the `k`
iterations that remain: `block.from = block.to; block.to = (filesize / mappers_count) * (n + 1);
in.seekg(block.to); scan; block.to = in.tellg(); blocks.push_back(block)`.
`fuel` is the iteration budget of each scan. -/
def split_loop (fuel filesize mappers_count : Nat) :
    Nat → Nat → Block → IfStream → List Block → Run (List Block)
  | 0, _, _, _, blocks => .done blocks
  | k + 1, n, block, in_, blocks =>
    match scan_line fuel (in_.seekg ((filesize / mappers_count) * (n + 1))) with
    | .done in2 =>
      split_loop fuel filesize mappers_count k (n + 1) ⟨block.to_, toSizeT in2.tellg.1⟩ in2.tellg.2
        (blocks ++ [⟨block.to_, toSizeT in2.tellg.1⟩])
    | .undefined => .undefined
    | .nofuel => .nofuel

/-- The function `MapReduce::split_file` on a file with the given content (the parameter `blocks_count`
is not used by the code, the member `mappers_count` is). -/
def split_file (fuel : Nat) (file : List Char) (mappers_count : Nat) : Run (List Block) :=
  if file.length > 0 then
    split_loop fuel file.length mappers_count mappers_count 0 ⟨0, 0⟩ ⟨file, 0, false, false⟩ []
  else .done []

/-! ## The map phase of `MapReduce::run` -/

/-- The loop `for (int i = 0; i < mappers_count; ++i) mapper_pool.emplace_back(mapper, i,
std::ref(blocks[i]));` of `run`: the mapper invocations it starts, each with its index and
the element `blocks[i]` it is handed; `none` is an access outside the vector. -/
def map_phase (blocks : List Block) (mappers_count : Nat) : List (Nat × Option Block) :=
  (List.range mappers_count).map (fun i => (i, blocks[i]?))

/-! ## `MapReduce::combiner` -/

/-- The loop `while (!in.eof())` of `combiner`.  The list `kvs` is kept newest first, so
that `kvs.back()` is its head; it is put in order when the loop ends. -/
def combiner_loop : Nat → IStream → List KeyValue → List Char → Run (List KeyValue)
  | 0, _, _, _ => .nofuel
  | fuel + 1, in_, kvs, prev_key =>
    if in_.eofbit then .done kvs.reverse
    else if (readKV in_).1.key = prev_key then
      match kvs with
      | [] => .undefined
      | back :: older =>
        if back.value = INT_MAX then .undefined
        else combiner_loop fuel (readKV in_).2 (⟨back.key, back.value + 1⟩ :: older) prev_key
    else if (readKV in_).1.value > 0 then
      combiner_loop fuel (readKV in_).2 ((readKV in_).1 :: kvs) (readKV in_).1.key
    else combiner_loop fuel (readKV in_).2 kvs prev_key

/-- The function `MapReduce::combiner` on a map file with the given content: the content written back. -/
def combiner (fuel : Nat) (file : List Char) : Run (List Char) :=
  (combiner_loop fuel (IStream.open_ file) [] []).map encodeFile

/-! ## `MapReduce::shuffle` -/

/-- The comparison passed to `std::min_element` in `shuffle`. -/
def key_less (a b : KeyValue) : Bool :=
  if a.key.length = 0 then false
  else if b.key.length = 0 then true
  else strLt a.key b.key

/-- The loop of `std::min_element`: `sm` is the index of the smallest element so far, `sv` its
value, `i` the index of the next element. -/
def min_element_from : Nat → KeyValue → Nat → List KeyValue → Nat
  | sm, _, _, [] => sm
  | sm, sv, i, x :: xs =>
    if key_less x sv then min_element_from i x (i + 1) xs
    else min_element_from sm sv (i + 1) xs

/-- The call `std::min_element(begin(kvs), end(kvs), key_less)` as an index; on an empty vector it is
`end(kvs)`, index `0`. -/
def min_element : List KeyValue → Nat
  | [] => 0
  | x :: xs => min_element_from 0 x 1 xs

/-- The loop `while (1)` of `shuffle`.  `ins` are the input streams, `kvs` the record held for
each of them, `closed` the partition files already closed, in index order, `out` the content
of the partition file being written (`out.tellp()` is its length). -/
def shuffle_loop (r_file_size : Int) :
    Nat → List IStream → List KeyValue → List Char → List (List Char) → List Char →
      Run (List (List Char))
  | 0, _, _, _, _, _ => .nofuel
  | fuel + 1, ins, kvs, prev_key, closed, out =>
    match kvs[min_element kvs]?, ins[min_element kvs]? with
    | some it, some f =>
      if it.key ≠ [] then
        if (out.length : Int) > r_file_size ∧ prev_key ≠ it.key then
          shuffle_loop r_file_size fuel (ins.set (min_element kvs) (readKV f).2)
            (kvs.set (min_element kvs) (readKV f).1) it.key (closed ++ [out]) (showLine it)
        else
          shuffle_loop r_file_size fuel (ins.set (min_element kvs) (readKV f).2)
            (kvs.set (min_element kvs) (readKV f).1) it.key closed (out ++ showLine it)
      else .done (closed ++ [out])
    | _, _ => .undefined

/-- The function `MapReduce::shuffle` on the map files `map_0`, `map_1`, ... with the given contents (the
output directory holds exactly these files when `shuffle` runs, and `mappers_count` is their
number): the partition files `reduce_0`, `reduce_1`, ... it writes, in index order. -/
def shuffle (fuel reducers_count : Nat) (files : List (List Char)) : Run (List (List Char)) :=
  if reducers_count = 0 then .undefined
  else
    shuffle_loop (toInt32 ((files.map List.length).sum / reducers_count)) fuel
      (files.map (fun f => (readKV (IStream.open_ f)).2))
      (files.map (fun f => (readKV (IStream.open_ f)).1)) [] [] []

/-! ## Well-formed records and files -/

/-- A key that the text encoding can carry: not empty and without white space. -/
def validKey (k : List Char) : Prop :=
  k ≠ [] ∧ ∀ c ∈ k, isspace c = false

instance (k : List Char) : Decidable (validKey k) := by
  unfold validKey; infer_instance

/-- A record with a valid key and a value in the range of `int`. -/
def validRec (r : KeyValue) : Prop :=
  validKey r.key ∧ INT_MIN ≤ r.value ∧ r.value ≤ INT_MAX

instance (r : KeyValue) : Decidable (validRec r) := by
  unfold validRec; infer_instance

/-- Records sorted ascending by key: no record has a key smaller than the key of a record
before it. -/
def keySorted (rs : List KeyValue) : Prop :=
  rs.Pairwise (fun a b => strLt b.key a.key = false)

instance (rs : List KeyValue) : Decidable (keySorted rs) := by
  unfold keySorted; infer_instance

/-- Records with strictly increasing keys. -/
def keyStrict (rs : List KeyValue) : Prop :=
  rs.Pairwise (fun a b => strLt a.key b.key = true)

instance (rs : List KeyValue) : Decidable (keyStrict rs) := by
  unfold keyStrict; infer_instance

/-! ## Record-level descriptions used in the proofs

A cursor of `shuffle` is described by the records of its file that are not yet written: the
first of them is the record held in `kvs`, the others are still in the stream. -/

/-- The record `kvs[i]` of a cursor with the unwritten records `rs`; `("", 0)` when the file
is exhausted. -/
def headOf : List KeyValue → KeyValue
  | [] => ⟨[], 0⟩
  | r :: _ => r

/-- The stream `in[i]` of a cursor with the unwritten records `rs`: it stands right after the
text of the first of them, or has failed at the end of the file. -/
def strmOf : List KeyValue → IStream
  | [] => ⟨[], true, true⟩
  | _ :: rs => ⟨'\n' :: encodeFile rs, false, false⟩

/-- The records in the order in which the merge of `shuffle` writes them. -/
def mergeSeq : Nat → List (List KeyValue) → List KeyValue
  | 0, _ => []
  | fuel + 1, curs =>
    match curs[min_element (curs.map headOf)]? with
    | some (it :: rs) => it :: mergeSeq fuel (curs.set (min_element (curs.map headOf)) rs)
    | _ => []

/-- The partition files that the rollover rule of `shuffle` makes of the records `M` written
in this order, starting with the closed files `closed`, the open file `out` and `prev_key`. -/
def cutParts (r_file_size : Int) :
    List KeyValue → List Char → List (List KeyValue) → List KeyValue → List (List KeyValue)
  | [], _, closed, out => closed ++ [out]
  | r :: rs, prev_key, closed, out =>
    if ((encodeFile out).length : Int) > r_file_size ∧ prev_key ≠ r.key then
      cutParts r_file_size rs r.key (closed ++ [out]) [r]
    else cutParts r_file_size rs r.key closed (out ++ [r])

/-- Number of records of a list of files. -/
def totalLen (curs : List (List KeyValue)) : Nat :=
  (curs.map List.length).sum

/-- The records `combiner` writes for the records `rs` that follow the record `back` it has
stored last: a record with the key of `back` adds one to it, another record with a positive
value is stored, another record with a value that is not positive is skipped. -/
def combineRecs : KeyValue → List KeyValue → List KeyValue
  | back, [] => [back]
  | back, r :: rs =>
    if r.key = back.key then combineRecs ⟨back.key, back.value + 1⟩ rs
    else if r.value > 0 then back :: combineRecs r rs
    else combineRecs back rs

/-- A block boundary that lies right after a line terminator of the file. -/
def afterNewline (file : List Char) (b : Block) : Prop :=
  1 ≤ b.to_ ∧ file[b.to_ - 1]? = some '\n'

instance (file : List Char) (b : Block) : Decidable (afterNewline file b) := by
  unfold afterNewline; infer_instance

/-- The number of characters of a text up to and including its first line terminator, or its
length when it has none. -/
def pastNewline : List Char → Nat
  | [] => 0
  | c :: cs => if c = '\n' then 1 else pastNewline cs + 1

/-- The offset just past the first `'\n'` of the file at an offset `>= p`, or the file size
when there is none (for `p` within the file). -/
def past_newline_from (file : List Char) (p : Nat) : Nat :=
  p + pastNewline (file.drop p)

/-- The records of a partition file that stand before its last key group, the last key group
being the records at its end that have the key of the last record. -/
def beforeLastGroup (p : List KeyValue) : List KeyValue :=
  match p.reverse with
  | [] => []
  | last :: before => (before.dropWhile (fun r => decide (r.key = last.key))).reverse

/-- A bound on the iterations the loop of `shuffle` can still make: for each cursor the
unread characters of its stream, plus one when it holds a record with a non-empty key. -/
def cursorMeasure (curs : List (IStream × KeyValue)) : Nat :=
  (curs.map (fun c => c.1.rest.length + if c.2.key = [] then 0 else 1)).sum

/-- The size rule inside a partition file with target size `T`: wherever the key changes, the
bytes written before the change do not exceed `T`. -/
def balancedAt (T : Int) (p : List KeyValue) : Prop :=
  ∀ a x y b, p = a ++ x :: y :: b → x.key ≠ y.key → ((encodeFile (a ++ [x])).length : Int) ≤ T

/-! ## The order on keys -/

theorem char_eq_of_toNat (a b : Char) (h1 : ¬ a.toNat < b.toNat) (h2 : ¬ b.toNat < a.toNat) :
    a = b := by
  have h : a.toNat = b.toNat := by omega
  rw [← Char.ofNat_toNat a, ← Char.ofNat_toNat b, h]

theorem strLt_nil_right (a : List Char) : strLt a [] = false := by
  cases a <;> rfl

theorem strLt_irrefl (a : List Char) : strLt a a = false := by
  induction a with
  | nil => rfl
  | cons x xs ih => simp [strLt, ih]

theorem strLt_trans (a b c : List Char) (h1 : strLt a b = true) (h2 : strLt b c = true) :
    strLt a c = true := by
  induction a generalizing b c with
  | nil =>
    cases c with
    | nil => rw [strLt_nil_right] at h2; exact absurd h2 (by simp)
    | cons z zs => rfl
  | cons x xs ih =>
    cases b with
    | nil => simp [strLt] at h1
    | cons y ys =>
      cases c with
      | nil => simp [strLt] at h2
      | cons z zs =>
        simp only [strLt] at h1 h2 ⊢
        split at h1
        · split at h2
          · rw [if_pos (by omega)]
          · split at h2
            · simp at h2
            · rw [if_pos (by omega)]
        · split at h1
          · simp at h1
          · split at h2
            · rw [if_pos (by omega)]
            · split at h2
              · simp at h2
              · rw [if_neg (by omega), if_neg (by omega)]
                exact ih ys zs h1 h2

theorem strLt_total (a b : List Char) (h1 : strLt a b = false) (h2 : a ≠ b) :
    strLt b a = true := by
  induction a generalizing b with
  | nil =>
    cases b with
    | nil => exact absurd rfl h2
    | cons y ys => simp [strLt] at h1
  | cons x xs ih =>
    cases b with
    | nil => rfl
    | cons y ys =>
      simp only [strLt] at h1 ⊢
      split at h1
      · simp at h1
      · split at h1
        · rw [if_pos (by assumption)]
        · rename_i hxy hyx
          rw [if_neg hyx, if_neg hxy]
          have hc : x = y := char_eq_of_toNat x y hxy hyx
          exact ih ys h1 (fun h => h2 (by rw [hc, h]))

theorem strLt_asymm (a b : List Char) (h : strLt a b = true) : strLt b a = false := by
  cases hb : strLt b a with
  | false => rfl
  | true =>
    have := strLt_trans a b a h hb
    rw [strLt_irrefl] at this
    exact absurd this (by simp)

theorem strLt_ne (a b : List Char) (h : strLt a b = true) : a ≠ b := by
  intro hab
  rw [hab, strLt_irrefl] at h
  exact absurd h (by simp)

/-- From `a ≤ b` and `b ≤ c` give `a ≤ c`, where `x ≤ y` is `strLt y x = false`. -/
theorem strLe_trans (a b c : List Char) (h1 : strLt b a = false) (h2 : strLt c b = false) :
    strLt c a = false := by
  cases hca : strLt c a with
  | false => rfl
  | true =>
    by_cases hab : a = b
    · rw [hab] at hca; rw [hca] at h2; exact absurd h2 (by simp)
    · have hab' : strLt a b = true := strLt_total b a h1 (fun h => hab h.symm)
      have := strLt_trans c a b hca hab'
      rw [this] at h2
      exact absurd h2 (by simp)

/-- From `a ≤ b` and `b < c` give `a < c`. -/
theorem strLe_lt_trans (a b c : List Char) (h1 : strLt b a = false) (h2 : strLt b c = true) :
    strLt a c = true := by
  by_cases hab : a = b
  · rw [hab]; exact h2
  · exact strLt_trans a b c (strLt_total b a h1 (fun h => hab h.symm)) h2

/-- From `a < b` and `b ≤ c` give `a < c`. -/
theorem strLt_le_trans (a b c : List Char) (h1 : strLt a b = true) (h2 : strLt c b = false) :
    strLt a c = true := by
  by_cases hbc : b = c
  · rw [← hbc]; exact h1
  · exact strLt_trans a b c h1 (strLt_total c b h2 (fun h => hbc h.symm))

/-! ## Facts about the codec -/

theorem digitVal_digitChar (d : Nat) (h : d < 10) : digitVal (digitChar d) = d := by
  interval_cases d <;> rfl

theorem isdigit_digitChar (d : Nat) (h : d < 10) : isdigit (digitChar d) = true := by
  interval_cases d <;> rfl

theorem isdigit_not_space (c : Char) (h : isdigit c = true) : isspace c = false := by
  simp only [isdigit, Bool.and_eq_true, decide_eq_true_eq] at h
  simp only [isspace, Bool.or_eq_false_iff, decide_eq_false_iff_not]
  have h1 : '0'.toNat = 48 := rfl
  have h2 : '9'.toNat = 57 := rfl
  rw [h1] at h
  refine ⟨⟨⟨⟨⟨?_, ?_⟩, ?_⟩, ?_⟩, ?_⟩, ?_⟩ <;> intro hc <;> subst hc <;> revert h <;> decide

theorem isdigit_not_sign (c : Char) (h : isdigit c = true) : c ≠ '-' ∧ c ≠ '+' := by
  simp only [isdigit, Bool.and_eq_true, decide_eq_true_eq] at h
  have h1 : '0'.toNat = 48 := rfl
  rw [h1] at h
  constructor <;> intro hc <;> subst hc <;> revert h <;> decide

theorem int_to_char_acc (fuel v : Nat) (acc : List Char) :
    int_to_char fuel v acc = int_to_char fuel v [] ++ acc := by
  induction fuel generalizing v acc with
  | zero => simp [int_to_char]
  | succ n ih =>
    simp only [int_to_char]
    split
    · simp
    · rw [ih (v / 10) (digitChar (v % 10) :: acc), ih (v / 10) [digitChar (v % 10)]]
      simp

theorem digitsValue_snoc (ds : List Char) (c : Char) :
    digitsValue (ds ++ [c]) = digitsValue ds * 10 + digitVal c := by
  simp [digitsValue, List.foldl_append]

theorem digitsValue_int_to_char (fuel v : Nat) (h : v < fuel) :
    digitsValue (int_to_char fuel v []) = v := by
  induction fuel generalizing v with
  | zero => omega
  | succ n ih =>
    simp only [int_to_char]
    split
    · rename_i h0
      have hv : v < 10 := by omega
      have : v % 10 = v := Nat.mod_eq_of_lt hv
      simp [digitsValue, this, digitVal_digitChar v hv]
    · rename_i h0
      rw [int_to_char_acc, digitsValue_snoc, ih (v / 10) (by omega),
        digitVal_digitChar _ (Nat.mod_lt _ (by omega))]
      omega

theorem int_to_char_digits (fuel v : Nat) :
    ∀ c ∈ int_to_char fuel v [], isdigit c = true := by
  induction fuel generalizing v with
  | zero => simp [int_to_char]
  | succ n ih =>
    simp only [int_to_char]
    split
    · intro c hc
      simp only [List.mem_singleton] at hc
      subst hc
      exact isdigit_digitChar _ (Nat.mod_lt _ (by omega))
    · rw [int_to_char_acc]
      intro c hc
      rcases List.mem_append.1 hc with h | h
      · exact ih _ c h
      · simp only [List.mem_singleton] at h
        subst h
        exact isdigit_digitChar _ (Nat.mod_lt _ (by omega))

theorem int_to_char_ne_nil (fuel v : Nat) : int_to_char (fuel + 1) v [] ≠ [] := by
  simp only [int_to_char]
  split
  · simp
  · rw [int_to_char_acc]; simp

theorem digitsValue_natToDec (v : Nat) : digitsValue (natToDec v) = v :=
  digitsValue_int_to_char (v + 1) v (by omega)

theorem natToDec_digits (v : Nat) : ∀ c ∈ natToDec v, isdigit c = true :=
  int_to_char_digits (v + 1) v

theorem natToDec_ne_nil (v : Nat) : natToDec v ≠ [] :=
  int_to_char_ne_nil v v

theorem takeWhile_append_stop {p : Char → Bool} (ds : List Char) (c : Char) (t : List Char)
    (hds : ∀ d ∈ ds, p d = true) (hc : p c = false) :
    (ds ++ c :: t).takeWhile p = ds := by
  induction ds with
  | nil => simp [List.takeWhile, hc]
  | cons d ds ih =>
    have hd : p d = true := hds d (List.mem_cons_self _ _)
    have := ih (fun x hx => hds x (List.mem_cons_of_mem _ hx))
    simp [List.takeWhile_cons, hd, this]

theorem dropWhile_append_stop {p : Char → Bool} (ds : List Char) (c : Char) (t : List Char)
    (hds : ∀ d ∈ ds, p d = true) (hc : p c = false) :
    (ds ++ c :: t).dropWhile p = c :: t := by
  induction ds with
  | nil => simp [List.dropWhile, hc]
  | cons d ds ih =>
    have hd : p d = true := hds d (List.mem_cons_self _ _)
    have := ih (fun x hx => hds x (List.mem_cons_of_mem _ hx))
    simp [List.dropWhile_cons, hd, this]


theorem dropWhile_all {p : Char → Bool} (ws : List Char) (h : ∀ w ∈ ws, p w = true) :
    ws.dropWhile p = [] := by
  induction ws with
  | nil => rfl
  | cons w ws ih =>
    have hw : p w = true := h w (List.mem_cons_self _ _)
    have := ih (fun x hx => h x (List.mem_cons_of_mem _ hx))
    simp [List.dropWhile_cons, hw, this]

theorem sentry_skip (ws : List Char) (c : Char) (t : List Char)
    (hws : ∀ w ∈ ws, isspace w = true) (hc : isspace c = false) :
    sentry ⟨ws ++ c :: t, false, false⟩ = (true, ⟨c :: t, false, false⟩) := by
  simp only [sentry, IStream.good, Bool.not_false, Bool.and_self, if_true]
  rw [dropWhile_append_stop ws c t hws hc]

theorem sentry_end (ws : List Char) (hws : ∀ w ∈ ws, isspace w = true) :
    sentry ⟨ws, false, false⟩ = (false, ⟨[], true, true⟩) := by
  simp only [sentry, IStream.good, Bool.not_false, Bool.and_self, if_true]
  rw [dropWhile_all ws hws]

theorem sentry_failed (r : List Char) (e : Bool) :
    sentry ⟨r, e, true⟩ = (false, ⟨r, e, true⟩) := by
  simp [sentry, IStream.good]

theorem readString_key (ws k t old : List Char) (hws : ∀ w ∈ ws, isspace w = true)
    (hk : validKey k) :
    readString ⟨ws ++ k ++ ' ' :: t, false, false⟩ old = (k, ⟨' ' :: t, false, false⟩) := by
  obtain ⟨hne, hsp⟩ := hk
  cases k with
  | nil => exact absurd rfl hne
  | cons c cs =>
    have hc : isspace c = false := hsp c (List.mem_cons_self _ _)
    have e1 : ws ++ (c :: cs) ++ ' ' :: t = ws ++ c :: (cs ++ ' ' :: t) := by simp
    have hp : ∀ d ∈ c :: cs, (fun x => !isspace x) d = true := by
      intro d hd; simp [hsp d hd]
    have hstop : (fun x => !isspace x) ' ' = false := by decide
    have e2 : c :: (cs ++ ' ' :: t) = (c :: cs) ++ ' ' :: t := by simp
    simp only [readString]
    rw [e1, sentry_skip ws c _ hws hc]
    simp only []
    rw [e2, takeWhile_append_stop (c :: cs) ' ' t hp hstop,
      dropWhile_append_stop (c :: cs) ' ' t hp hstop]
    simp

theorem readSign_digit (c : Char) (t : List Char) (h : isdigit c = true) :
    readSign (c :: t) = (false, c :: t) := by
  have := isdigit_not_sign c h
  simp [readSign, this.1, this.2]

theorem readInt_pos (ws : List Char) (n : Nat) (c : Char) (t : List Char) (old : Int)
    (hws : ∀ w ∈ ws, isspace w = true) (hc : isdigit c = false) (hhi : (n : Int) ≤ INT_MAX) :
    readInt ⟨ws ++ natToDec n ++ c :: t, false, false⟩ old
      = ((n : Int), ⟨c :: t, false, false⟩) := by
  have hd := natToDec_digits n
  have hne := natToDec_ne_nil n
  have htw := takeWhile_append_stop (natToDec n) c t hd hc
  have hdw := dropWhile_append_stop (natToDec n) c t hd hc
  have hval := digitsValue_natToDec n
  cases hnd : natToDec n with
  | nil => exact absurd hnd hne
  | cons d ds =>
    have hdd : isdigit d = true := hd d (by rw [hnd]; exact List.mem_cons_self _ _)
    rw [hnd] at htw hdw hval
    have hm : isspace d = false := isdigit_not_space d hdd
    have e1 : ws ++ (d :: ds) ++ c :: t = ws ++ d :: (ds ++ c :: t) := by simp
    have e2 : d :: (ds ++ c :: t) = (d :: ds) ++ c :: t := by simp
    have hmin : INT_MIN ≤ (n : Int) := by unfold INT_MIN; omega
    simp only [readInt]
    rw [e1, sentry_skip ws d _ hws hm]
    simp only []
    rw [readSign_digit d _ hdd]
    simp only []
    rw [e2, htw, hdw, hval]
    simp only [List.isEmpty_cons, Bool.false_eq_true, if_false]
    rw [if_neg (by omega), if_neg (by omega)]

theorem readInt_neg (ws : List Char) (n : Nat) (c : Char) (t : List Char) (old : Int)
    (hws : ∀ w ∈ ws, isspace w = true) (hc : isdigit c = false) (hlo : INT_MIN ≤ -(n : Int)) :
    readInt ⟨ws ++ ('-' :: natToDec n) ++ c :: t, false, false⟩ old
      = (-(n : Int), ⟨c :: t, false, false⟩) := by
  have hd := natToDec_digits n
  have hne := natToDec_ne_nil n
  have htw := takeWhile_append_stop (natToDec n) c t hd hc
  have hdw := dropWhile_append_stop (natToDec n) c t hd hc
  have hval := digitsValue_natToDec n
  cases hnd : natToDec n with
  | nil => exact absurd hnd hne
  | cons d ds =>
    rw [hnd] at htw hdw hval
    have hm : isspace '-' = false := by decide
    have e1 : ws ++ ('-' :: (d :: ds)) ++ c :: t = ws ++ '-' :: ((d :: ds) ++ c :: t) := by simp
    have hmax : -(n : Int) ≤ INT_MAX := by unfold INT_MAX; omega
    simp only [readInt]
    rw [e1, sentry_skip ws '-' _ hws hm]
    simp only [readSign, if_true]
    rw [htw, hdw, hval]
    simp only [List.isEmpty_cons, Bool.false_eq_true, if_false]
    rw [if_neg (by omega), if_neg (by omega)]

theorem readInt_show (ws : List Char) (v : Int) (c : Char) (t : List Char) (old : Int)
    (hws : ∀ w ∈ ws, isspace w = true) (hc : isdigit c = false)
    (hlo : INT_MIN ≤ v) (hhi : v ≤ INT_MAX) :
    readInt ⟨ws ++ showInt v ++ c :: t, false, false⟩ old = (v, ⟨c :: t, false, false⟩) := by
  unfold showInt
  by_cases h : v < 0
  · have hv : -(v.natAbs : Int) = v := by omega
    rw [if_pos h, readInt_neg ws v.natAbs c t old hws hc (by rw [hv]; exact hlo), hv]
  · have hv : (v.natAbs : Int) = v := by omega
    rw [if_neg h, readInt_pos ws v.natAbs c t old hws hc (by rw [hv]; exact hhi), hv]

/-- Reading one line written by `out << kv << "\n"`, after white space `ws`. -/
theorem readKV_line (ws : List Char) (r : KeyValue) (t : List Char)
    (hws : ∀ w ∈ ws, isspace w = true) (hr : validRec r) :
    readKV ⟨ws ++ showLine r ++ t, false, false⟩ = (r, ⟨'\n' :: t, false, false⟩) := by
  obtain ⟨hk, hlo, hhi⟩ := hr
  have e1 : ws ++ showLine r ++ t = ws ++ r.key ++ ' ' :: (showInt r.value ++ '\n' :: t) := by
    simp [showLine, showKV]
  have e2 : (' ' : Char) :: (showInt r.value ++ '\n' :: t)
      = [' '] ++ showInt r.value ++ '\n' :: t := by simp
  have hsp : ∀ w ∈ [' '], isspace w = true := by
    intro w hw; simp only [List.mem_singleton] at hw; subst hw; decide
  have hnl : isdigit '\n' = false := by decide
  simp only [readKV]
  rw [e1, readString_key ws r.key _ [] hws hk]
  simp only []
  rw [e2, readInt_show [' '] r.value '\n' t 0 hsp hnl hlo hhi]

/-- Reading at the end of a file: the record is `("", 0)` and the stream has failed. -/
theorem readKV_end (ws : List Char) (hws : ∀ w ∈ ws, isspace w = true) :
    readKV ⟨ws, false, false⟩ = (⟨[], 0⟩, ⟨[], true, true⟩) := by
  simp only [readKV, readString, readInt]
  rw [sentry_end ws hws]
  simp only []
  rw [sentry_failed]

/-- Reading from a stream that has failed. -/
theorem readKV_failed (r : List Char) (e : Bool) :
    readKV ⟨r, e, true⟩ = (⟨[], 0⟩, ⟨r, e, true⟩) := by
  simp only [readKV, readString, readInt]
  rw [sentry_failed]
  simp only []
  rw [sentry_failed]

/-! ## Cursors over encoded files -/

theorem encodeFile_append (a b : List KeyValue) :
    encodeFile (a ++ b) = encodeFile a ++ encodeFile b := by
  induction a with
  | nil => rfl
  | cons x xs ih => simp [encodeFile, ih]

theorem encodeFile_singleton (r : KeyValue) : encodeFile [r] = showLine r := by
  simp [encodeFile]

/-- The first read from a file of valid records. -/
theorem readKV_open (f : List KeyValue) (hf : ∀ r ∈ f, validRec r) :
    readKV (IStream.open_ (encodeFile f)) = (headOf f, strmOf f) := by
  cases f with
  | nil => exact readKV_end [] (by simp)
  | cons r rs =>
    have := readKV_line [] r (encodeFile rs) (by simp) (hf r (List.mem_cons_self _ _))
    simpa [IStream.open_, encodeFile, headOf, strmOf] using this

/-- The read that follows the record a cursor holds. -/
theorem readKV_next (r : KeyValue) (rs : List KeyValue) (hf : ∀ x ∈ rs, validRec x) :
    readKV (strmOf (r :: rs)) = (headOf rs, strmOf rs) := by
  have hnl : ∀ w ∈ ['\n'], isspace w = true := by
    intro w hw; simp only [List.mem_singleton] at hw; subst hw; decide
  cases rs with
  | nil => exact readKV_end ['\n'] hnl
  | cons x xs =>
    have := readKV_line ['\n'] x (encodeFile xs) hnl (hf x (List.mem_cons_self _ _))
    simpa [encodeFile, headOf, strmOf] using this

theorem readN_encode (ws : List Char) (recs : List KeyValue)
    (hws : ∀ w ∈ ws, isspace w = true) (hrecs : ∀ x ∈ recs, validRec x) :
    (readN recs.length ⟨ws ++ encodeFile recs, false, false⟩).1 = recs := by
  induction recs generalizing ws with
  | nil => rfl
  | cons r rs ih =>
    have hnl : ∀ w ∈ ['\n'], isspace w = true := by
      intro w hw; simp only [List.mem_singleton] at hw; subst hw; decide
    have h1 := readKV_line ws r (encodeFile rs) hws (hrecs r (List.mem_cons_self _ _))
    have h2 := ih ['\n'] hnl (fun x hx => hrecs x (List.mem_cons_of_mem _ hx))
    have e : ws ++ encodeFile (r :: rs) = ws ++ showLine r ++ encodeFile rs := by
      simp [encodeFile]
    simp only [List.length_cons, readN]
    rw [e, h1]
    simp only [List.singleton_append] at h2
    rw [h2]

/-! ## `std::min_element` with the comparison of `shuffle` -/

theorem key_less_irrefl (a : KeyValue) : key_less a a = false := by
  unfold key_less
  split
  · rfl
  · exact strLt_irrefl _

theorem key_less_trans (a b c : KeyValue) (h1 : key_less a b = true) (h2 : key_less b c = true) :
    key_less a c = true := by
  unfold key_less at h1 h2 ⊢
  split at h1
  · simp at h1
  · rename_i ha
    rw [if_neg ha]
    split at h2
    · simp at h2
    · rename_i hb
      rw [if_neg hb] at h1
      split at h2
      · rename_i hc; rw [if_pos hc]
      · rename_i hc; rw [if_neg hc]; exact strLt_trans _ _ _ h1 h2

/-- The invariant of the loop of `std::min_element`. -/
theorem min_element_from_spec (xs pre : List KeyValue) (sm : Nat) (sv : KeyValue)
    (hsm : (pre ++ xs)[sm]? = some sv) (hsmlt : sm < pre.length)
    (hpre : ∀ x ∈ pre, key_less x sv = false) :
    ∃ v, (pre ++ xs)[min_element_from sm sv pre.length xs]? = some v ∧
      min_element_from sm sv pre.length xs < (pre ++ xs).length ∧
      ∀ x ∈ pre ++ xs, key_less x v = false := by
  induction xs generalizing pre sm sv with
  | nil =>
    refine ⟨sv, by simpa [min_element_from] using hsm, ?_, ?_⟩
    · simpa [min_element_from] using hsmlt
    · simpa using hpre
  | cons x xs ih =>
    have e : pre ++ x :: xs = (pre ++ [x]) ++ xs := by simp
    have hl : (pre ++ [x]).length = pre.length + 1 := by simp
    simp only [min_element_from]
    split
    · rename_i hlt
      have h1 : ((pre ++ [x]) ++ xs)[pre.length]? = some x := by
        rw [List.getElem?_append_left (by simp), List.getElem?_append_right (by simp)]
        simp
      have h2 : ∀ y ∈ pre ++ [x], key_less y x = false := by
        intro y hy
        rcases List.mem_append.1 hy with hy | hy
        · cases hyx : key_less y x with
          | false => rfl
          | true =>
            have := key_less_trans y x sv hyx hlt
            rw [hpre y hy] at this
            exact absurd this (by simp)
        · simp only [List.mem_singleton] at hy
          rw [hy]; exact key_less_irrefl x
      have := ih (pre ++ [x]) pre.length x h1 (by simp) h2
      rw [hl] at this
      rw [e]; exact this
    · rename_i hlt
      have h1 : ((pre ++ [x]) ++ xs)[sm]? = some sv := by rw [← e]; exact hsm
      have h2 : ∀ y ∈ pre ++ [x], key_less y sv = false := by
        intro y hy
        rcases List.mem_append.1 hy with hy | hy
        · exact hpre y hy
        · simp only [List.mem_singleton] at hy
          rw [hy]; simpa using hlt
      have := ih (pre ++ [x]) sm sv h1 (by simp; omega) h2
      rw [hl] at this
      rw [e]; exact this

/-- The call `std::min_element` on a non-empty vector returns an element that no element is less than. -/
theorem min_element_spec (kvs : List KeyValue) (hne : kvs ≠ []) :
    ∃ v, kvs[min_element kvs]? = some v ∧ min_element kvs < kvs.length ∧
      ∀ x ∈ kvs, key_less x v = false := by
  cases kvs with
  | nil => exact absurd rfl hne
  | cons x xs =>
    have := min_element_from_spec xs [x] 0 x (by simp) (by simp)
      (by intro y hy; simp only [List.mem_singleton] at hy; rw [hy]; exact key_less_irrefl x)
    simpa [min_element] using this

/-! ## The merge order -/

theorem flatten_set_perm (curs : List (List KeyValue)) (i : Nat) (it : KeyValue)
    (rs : List KeyValue) (h : curs[i]? = some (it :: rs)) :
    curs.flatten.Perm (it :: (curs.set i rs).flatten) := by
  induction curs generalizing i with
  | nil => simp at h
  | cons c cs ih =>
    cases i with
    | zero =>
      simp only [List.getElem?_cons_zero, Option.some.injEq] at h
      subst h
      simp
    | succ j =>
      simp only [List.getElem?_cons_succ] at h
      have := ih j h
      simp only [List.set_cons_succ, List.flatten_cons]
      exact (List.Perm.append_left c this).trans List.perm_middle

theorem totalLen_set (curs : List (List KeyValue)) (i : Nat) (it : KeyValue)
    (rs : List KeyValue) (h : curs[i]? = some (it :: rs)) :
    totalLen (curs.set i rs) + 1 = totalLen curs := by
  have := (flatten_set_perm curs i it rs h).length_eq
  simp only [List.length_flatten, List.length_cons] at this
  unfold totalLen
  omega

theorem mem_of_mem_set {α : Type} (l : List α) (i : Nat) (a x : α) (h : x ∈ l.set i a) :
    x ∈ l ∨ x = a := by
  induction l generalizing i with
  | nil => simp at h
  | cons y ys ih =>
    cases i with
    | zero =>
      simp only [List.set_cons_zero, List.mem_cons] at h
      rcases h with h | h
      · exact Or.inr h
      · exact Or.inl (List.mem_cons_of_mem _ h)
    | succ j =>
      simp only [List.set_cons_succ, List.mem_cons] at h
      rcases h with h | h
      · exact Or.inl (by rw [h]; exact List.mem_cons_self _ _)
      · rcases ih j h with h' | h'
        · exact Or.inl (List.mem_cons_of_mem _ h')
        · exact Or.inr h'

/-- The cursor chosen by `std::min_element`: no cursor holds a record less than its record. -/
theorem pick_spec (curs : List (List KeyValue)) (hne : curs ≠ []) :
    ∃ c, curs[min_element (curs.map headOf)]? = some c ∧
      ∀ d ∈ curs, key_less (headOf d) (headOf c) = false := by
  obtain ⟨v, hv, hlt, hmin⟩ := min_element_spec (curs.map headOf) (by simpa using hne)
  rw [List.getElem?_map] at hv
  cases hc : curs[min_element (curs.map headOf)]? with
  | none => rw [hc] at hv; simp at hv
  | some c =>
    rw [hc] at hv
    simp only [Option.map_some', Option.some.injEq] at hv
    refine ⟨c, rfl, ?_⟩
    intro d hd
    rw [hv]
    exact hmin (headOf d) (List.mem_map_of_mem _ hd)

/-- When the chosen cursor is exhausted, every cursor is. -/
theorem pick_nil (curs : List (List KeyValue)) (hk : ∀ c ∈ curs, ∀ r ∈ c, r.key ≠ [])
    (h : ∀ d ∈ curs, key_less (headOf d) (headOf []) = false) : ∀ d ∈ curs, d = [] := by
  intro d hd
  cases d with
  | nil => rfl
  | cons r rs =>
    have h1 := h _ hd
    have h2 : r.key ≠ [] := hk _ hd r (List.mem_cons_self _ _)
    have h3 : r.key.length ≠ 0 := by
      intro h0; exact h2 (List.length_eq_zero.1 h0)
    simp [key_less, headOf, h3] at h1

/-- The record of the chosen cursor is not greater than any record a cursor holds. -/
theorem pick_cons (curs : List (List KeyValue)) (hk : ∀ c ∈ curs, ∀ r ∈ c, r.key ≠ [])
    (it : KeyValue) (rs : List KeyValue)
    (h : ∀ d ∈ curs, key_less (headOf d) (headOf (it :: rs)) = false)
    (hit : it.key ≠ []) :
    ∀ d ∈ curs, ∀ r t, d = r :: t → strLt r.key it.key = false := by
  intro d hd r t hdr
  subst hdr
  have h1 := h _ hd
  have h2 : r.key ≠ [] := hk _ hd r (List.mem_cons_self _ _)
  have h3 : r.key.length ≠ 0 := by
    intro h0; exact h2 (List.length_eq_zero.1 h0)
  have h4 : it.key.length ≠ 0 := by
    intro h0; exact hit (List.length_eq_zero.1 h0)
  simpa [key_less, headOf, h3, h4] using h1

theorem keys_set (curs : List (List KeyValue)) (i : Nat) (it : KeyValue) (rs : List KeyValue)
    (P : KeyValue → Prop) (hk : ∀ c ∈ curs, ∀ r ∈ c, P r) (h : curs[i]? = some (it :: rs)) :
    ∀ c ∈ curs.set i rs, ∀ r ∈ c, P r := by
  intro c hc r hr
  have hmem : it :: rs ∈ curs := List.mem_iff_getElem?.2 ⟨i, h⟩
  rcases mem_of_mem_set curs i rs c hc with h1 | h1
  · exact hk c h1 r hr
  · subst h1
    exact hk _ hmem r (List.mem_cons_of_mem _ hr)

theorem mergeSeq_perm (fuel : Nat) (curs : List (List KeyValue))
    (hk : ∀ c ∈ curs, ∀ r ∈ c, r.key ≠ []) (hfuel : totalLen curs < fuel) :
    (mergeSeq fuel curs).Perm curs.flatten := by
  induction fuel generalizing curs with
  | zero => omega
  | succ n ih =>
    by_cases hne : curs = []
    · subst hne; simp [mergeSeq]
    · obtain ⟨c, hc, hmin⟩ := pick_spec curs hne
      simp only [mergeSeq, hc]
      cases c with
      | nil =>
        have hall := pick_nil curs hk hmin
        have : curs.flatten = [] := by
          simp only [List.flatten_eq_nil_iff]
          exact hall
        rw [this]
      | cons it rs =>
        simp only []
        have hlen := totalLen_set curs _ it rs hc
        have := ih (curs.set _ rs) (keys_set curs _ it rs _ hk hc) (by omega)
        exact (List.Perm.cons it this).trans (flatten_set_perm curs _ it rs hc).symm

theorem mergeSeq_mem (fuel : Nat) (curs : List (List KeyValue)) (x : KeyValue)
    (hx : x ∈ mergeSeq fuel curs) : x ∈ curs.flatten := by
  induction fuel generalizing curs with
  | zero => simp [mergeSeq] at hx
  | succ n ih =>
    simp only [mergeSeq] at hx
    split at hx
    · rename_i it rs hc
      have hp := flatten_set_perm curs _ it rs hc
      rcases List.mem_cons.1 hx with h | h
      · exact hp.symm.subset (by rw [h]; exact List.mem_cons_self _ _)
      · exact hp.symm.subset (List.mem_cons_of_mem _ (ih _ h))
    · simp at hx

theorem mergeSeq_sorted (fuel : Nat) (curs : List (List KeyValue))
    (hk : ∀ c ∈ curs, ∀ r ∈ c, r.key ≠ []) (hs : ∀ c ∈ curs, keySorted c) :
    keySorted (mergeSeq fuel curs) := by
  induction fuel generalizing curs with
  | zero => simp [mergeSeq, keySorted]
  | succ n ih =>
    by_cases hne : curs = []
    · subst hne; simp [mergeSeq, keySorted]
    · obtain ⟨c, hc, hmin⟩ := pick_spec curs hne
      simp only [mergeSeq, hc]
      cases c with
      | nil => simp [keySorted]
      | cons it rs =>
        simp only []
        have hmem : it :: rs ∈ curs := List.mem_iff_getElem?.2 ⟨_, hc⟩
        have hit : it.key ≠ [] := hk _ hmem it (List.mem_cons_self _ _)
        have hle := pick_cons curs hk it rs hmin hit
        have hsrt : keySorted (it :: rs) := hs _ hmem
        have hs' : ∀ c ∈ curs.set (min_element (curs.map headOf)) rs, keySorted c := by
          intro c hc'
          rcases mem_of_mem_set curs _ rs c hc' with h1 | h1
          · exact hs c h1
          · subst h1; exact (List.pairwise_cons.1 hsrt).2
        have hrec := ih (curs.set _ rs) (keys_set curs _ it rs _ hk hc) hs'
        unfold keySorted
        refine List.pairwise_cons.2 ⟨?_, hrec⟩
        intro x hx
        have hx1 : x ∈ it :: (curs.set (min_element (curs.map headOf)) rs).flatten :=
          List.mem_cons_of_mem _ (mergeSeq_mem n _ x hx)
        have hx2 : x ∈ curs.flatten := (flatten_set_perm curs _ it rs hc).symm.subset hx1
        obtain ⟨d, hd, hxd⟩ := List.mem_flatten.1 hx2
        cases d with
        | nil => simp at hxd
        | cons r t =>
          have h1 : strLt r.key it.key = false := hle _ hd r t rfl
          rcases List.mem_cons.1 hxd with h2 | h2
          · rw [h2]; exact h1
          · have h3 : strLt x.key r.key = false := (List.pairwise_cons.1 (hs _ hd)).1 x h2
            exact strLe_trans it.key r.key x.key h1 h3

/-! ## The loop of `shuffle` on encoded files -/

theorem headOf_cons (r : KeyValue) (rs : List KeyValue) : headOf (r :: rs) = r := rfl

theorem valid_key_ne (r : KeyValue) (h : validRec r) : r.key ≠ [] := h.1.1

/-- On files of valid records the loop of `shuffle` writes the records in merge order and
cuts them into partition files by the rollover rule. -/
theorem shuffle_loop_sim (T : Int) (fuel : Nat) (curs : List (List KeyValue))
    (prev : List Char) (closed : List (List KeyValue)) (out : List KeyValue)
    (hv : ∀ c ∈ curs, ∀ r ∈ c, validRec r) (hne : curs ≠ []) (hfuel : totalLen curs < fuel) :
    shuffle_loop T fuel (curs.map strmOf) (curs.map headOf) prev (closed.map encodeFile)
        (encodeFile out)
      = .done ((cutParts T (mergeSeq fuel curs) prev closed out).map encodeFile) := by
  induction fuel generalizing curs prev closed out with
  | zero => omega
  | succ n ih =>
    obtain ⟨c, hc, _⟩ := pick_spec curs hne
    simp only [shuffle_loop, mergeSeq, List.getElem?_map, hc, Option.map_some']
    cases c with
    | nil => simp [headOf, cutParts]
    | cons it rs =>
      have hmem : it :: rs ∈ curs := List.mem_iff_getElem?.2 ⟨_, hc⟩
      have hit : it.key ≠ [] := valid_key_ne it (hv _ hmem it (List.mem_cons_self _ _))
      have hrd := readKV_next it rs (fun x hx => hv _ hmem x (List.mem_cons_of_mem _ hx))
      have hlen := totalLen_set curs _ it rs hc
      have hv' := keys_set curs _ it rs _ hv hc
      have hne' : curs.set (min_element (curs.map headOf)) rs ≠ [] := by
        intro h0
        have := congrArg List.length h0
        simp only [List.length_set, List.length_nil] at this
        exact hne (List.length_eq_zero.1 this)
      simp only [headOf_cons, hit, ne_eq, not_false_eq_true, if_true, hrd, cutParts]
      by_cases hcond : ((encodeFile out).length : Int) > T ∧ prev ≠ it.key
      · rw [if_pos hcond, if_pos hcond, ← List.map_set, ← List.map_set]
        have := ih (curs.set _ rs) it.key (closed ++ [out]) [it] hv' hne' (by omega)
        simpa [encodeFile_singleton] using this
      · rw [if_neg hcond, if_neg hcond, ← List.map_set, ← List.map_set]
        have := ih (curs.set _ rs) it.key closed (out ++ [it]) hv' hne' (by omega)
        simpa [encodeFile_append, encodeFile_singleton] using this

/-- The result of `shuffle` on files of valid records. -/
theorem shuffle_eq (fuel R : Nat) (files : List (List KeyValue))
    (hR : 1 ≤ R) (hne : files ≠ []) (hv : ∀ f ∈ files, ∀ r ∈ f, validRec r)
    (hfuel : totalLen files < fuel) :
    shuffle fuel R (files.map encodeFile)
      = .done ((cutParts (toInt32 (((files.map encodeFile).map List.length).sum / R))
          (mergeSeq fuel files) [] [] []).map encodeFile) := by
  have h1 : (files.map encodeFile).map (fun f => (readKV (IStream.open_ f)).2)
      = files.map strmOf := by
    rw [List.map_map]
    apply List.map_congr_left
    intro f hf
    simp [readKV_open f (hv f hf)]
  have h2 : (files.map encodeFile).map (fun f => (readKV (IStream.open_ f)).1)
      = files.map headOf := by
    rw [List.map_map]
    apply List.map_congr_left
    intro f hf
    simp [readKV_open f (hv f hf)]
  unfold shuffle
  rw [if_neg (by omega), h1, h2]
  exact shuffle_loop_sim _ fuel files [] [] [] hv hne hfuel

/-! ## The rollover rule -/

theorem cutParts_closed (T : Int) (M : List KeyValue) (prev : List Char)
    (closed : List (List KeyValue)) (out : List KeyValue) :
    cutParts T M prev closed out = closed ++ cutParts T M prev [] out := by
  induction M generalizing prev closed out with
  | nil => simp [cutParts]
  | cons r rs ih =>
    simp only [cutParts]
    split
    · rw [ih r.key (closed ++ [out]) [r], ih r.key ([] ++ [out]) [r]]
      simp
    · rw [ih r.key closed (out ++ [r])]

theorem cutParts_flatten (T : Int) (M : List KeyValue) (prev : List Char)
    (out : List KeyValue) :
    (cutParts T M prev [] out).flatten = out ++ M := by
  induction M generalizing prev out with
  | nil => simp [cutParts]
  | cons r rs ih =>
    simp only [cutParts]
    split
    · rw [cutParts_closed, List.flatten_append, ih r.key [r]]
      simp
    · rw [ih r.key (out ++ [r])]
      simp

/-- Records of different partition files have different keys, the earlier file the smaller. -/
theorem cutParts_separated (T : Int) (M : List KeyValue) (prev : List Char)
    (out : List KeyValue) (hs : keySorted M)
    (hout : ∀ a ∈ out, strLt prev a.key = false) (hM : ∀ b ∈ M, strLt b.key prev = false) :
    (cutParts T M prev [] out).Pairwise
      (fun p q => ∀ a ∈ p, ∀ b ∈ q, strLt a.key b.key = true) := by
  induction M generalizing prev out with
  | nil => simp [cutParts]
  | cons r rs ih =>
    have hrs : keySorted rs := (List.pairwise_cons.1 hs).2
    have hr : ∀ b ∈ rs, strLt b.key r.key = false := (List.pairwise_cons.1 hs).1
    have hpr : strLt r.key prev = false := hM r (List.mem_cons_self _ _)
    simp only [cutParts]
    split
    · rename_i hcond
      rw [cutParts_closed]
      have hlt : strLt prev r.key = true := strLt_total r.key prev hpr (fun h => hcond.2 h.symm)
      have hrec := ih r.key [r] hrs
        (by intro a ha; simp only [List.mem_singleton] at ha; rw [ha]; exact strLt_irrefl _) hr
      simp only [List.nil_append, List.singleton_append]
      refine List.pairwise_cons.2 ⟨?_, hrec⟩
      intro q hq a ha b hb
      have har : strLt a.key r.key = true := strLe_lt_trans a.key prev r.key (hout a ha) hlt
      have hb' : b ∈ (cutParts T rs r.key [] [r]).flatten := List.mem_flatten.2 ⟨q, hq, hb⟩
      rw [cutParts_flatten] at hb'
      simp only [List.singleton_append, List.mem_cons] at hb'
      rcases hb' with h | h
      · rw [h]; exact har
      · exact strLt_le_trans a.key r.key b.key har (hr b h)
    · apply ih r.key (out ++ [r]) hrs _ hr
      intro a ha
      rcases List.mem_append.1 ha with h | h
      · exact strLe_trans a.key prev r.key (hout a h) hpr
      · simp only [List.mem_singleton] at h
        rw [h]; exact strLt_irrefl _

theorem encodeFile_cons_length (r : KeyValue) (rs : List KeyValue) :
    (encodeFile (r :: rs)).length = (showLine r).length + (encodeFile rs).length := by
  simp [encodeFile]

/-- Every partition file but the last is larger than the target size. -/
theorem cutParts_count (Tn : Nat) (M : List KeyValue) (prev : List Char) (out : List KeyValue) :
    ∃ k, (cutParts (Tn : Int) M prev [] out).length = k + 1 ∧
      k * (Tn + 1) ≤ (encodeFile out).length + (encodeFile M).length := by
  induction M generalizing prev out with
  | nil => exact ⟨0, by simp [cutParts], by simp⟩
  | cons r rs ih =>
    simp only [cutParts]
    split
    · rename_i hcond
      obtain ⟨k, hk, hle⟩ := ih r.key [r]
      refine ⟨k + 1, ?_, ?_⟩
      · rw [cutParts_closed]; simp [hk]
      · have h1 : Tn < (encodeFile out).length := by
          have := hcond.1
          omega
        rw [encodeFile_singleton] at hle
        rw [encodeFile_cons_length]
        have : (k + 1) * (Tn + 1) = k * (Tn + 1) + (Tn + 1) := by ring
        omega
    · obtain ⟨k, hk, hle⟩ := ih r.key (out ++ [r])
      refine ⟨k, hk, ?_⟩
      rw [encodeFile_append, encodeFile_singleton, List.length_append] at hle
      rw [encodeFile_cons_length]
      omega

theorem encodeFile_length_perm (a b : List KeyValue) (h : a.Perm b) :
    (encodeFile a).length = (encodeFile b).length := by
  induction h with
  | nil => rfl
  | cons x _ ih => simp [encodeFile_cons_length, ih]
  | swap x y l => simp only [encodeFile_cons_length]; omega
  | trans _ _ ih1 ih2 => rw [ih1, ih2]

theorem encodeFile_flatten_length (files : List (List KeyValue)) :
    (encodeFile files.flatten).length = ((files.map encodeFile).map List.length).sum := by
  induction files with
  | nil => rfl
  | cons f fs ih => simp [encodeFile_append, ih]

theorem toInt32_small (n : Nat) (h : n < 2147483648) : toInt32 n = (n : Int) := by
  unfold toInt32
  have : n % 4294967296 = n := Nat.mod_eq_of_lt (by omega)
  rw [this, if_pos h]

/-! ## The loop of `combiner` on an encoded file -/

theorem nl_space : ∀ w ∈ ['\n'], isspace w = true := by
  intro w hw; simp only [List.mem_singleton] at hw; subst hw; decide

/-- After a first record is stored, the loop of `combiner` computes `combineRecs`. -/
theorem combiner_loop_stored (fuel : Nat) (rs : List KeyValue) (back : KeyValue)
    (older : List KeyValue) (hb : back.key ≠ [])
    (hv : ∀ r ∈ rs, validRec r)
    (hrange : ∀ x ∈ back :: rs, x.value + rs.length ≤ INT_MAX)
    (hfuel : rs.length + 2 ≤ fuel) :
    combiner_loop fuel ⟨'\n' :: encodeFile rs, false, false⟩ (back :: older) back.key
      = .done (older.reverse ++ combineRecs back rs) := by
  induction rs generalizing fuel back older with
  | nil =>
    obtain ⟨k, rfl⟩ : ∃ k, fuel = k + 2 := ⟨fuel - 2, by simp at hfuel; omega⟩
    have hrd := readKV_end ['\n'] nl_space
    have hb' : ¬ ([] : List Char) = back.key := fun h => hb h.symm
    simp [combiner_loop, encodeFile, hrd, hb', combineRecs]
  | cons r rs ih =>
    obtain ⟨k, rfl⟩ : ∃ k, fuel = k + 1 := ⟨fuel - 1, by simp at hfuel; omega⟩
    have hr : validRec r := hv r (List.mem_cons_self _ _)
    have hv' : ∀ x ∈ rs, validRec x := fun x hx => hv x (List.mem_cons_of_mem _ hx)
    have hrd := readKV_line ['\n'] r (encodeFile rs) nl_space hr
    have e : '\n' :: encodeFile (r :: rs) = ['\n'] ++ showLine r ++ encodeFile rs := by
      simp [encodeFile]
    simp only [List.length_cons] at hrange hfuel
    have hrb := hrange back (List.mem_cons_self _ _)
    have hrr := hrange r (List.mem_cons_of_mem _ (List.mem_cons_self _ _))
    have hrs : ∀ x ∈ rs, x.value + rs.length ≤ INT_MAX := by
      intro x hx
      have := hrange x (List.mem_cons_of_mem _ (List.mem_cons_of_mem _ hx))
      push_cast at this
      omega
    push_cast at hrb hrr
    simp only [combiner_loop, Bool.false_eq_true, if_false, combineRecs]
    rw [e, hrd]
    simp only []
    by_cases h1 : r.key = back.key
    · have hmax : back.value ≠ INT_MAX := by omega
      rw [if_pos h1, if_neg hmax, if_pos h1]
      have := ih k ⟨back.key, back.value + 1⟩ older hb hv'
        (by
          intro x hx
          rcases List.mem_cons.1 hx with h | h
          · rw [h]; simp only []; omega
          · exact hrs x h) (by omega)
      simpa using this
    · rw [if_neg h1, if_neg h1]
      by_cases h2 : r.value > 0
      · rw [if_pos h2, if_pos h2]
        have := ih k r (back :: older) (valid_key_ne r hr) hv'
          (by
            intro x hx
            rcases List.mem_cons.1 hx with h | h
            · rw [h]; omega
            · exact hrs x h) (by omega)
        simpa using this
      · rw [if_neg h2, if_neg h2]
        exact ih k back older hb hv'
          (by
            intro x hx
            rcases List.mem_cons.1 hx with h | h
            · rw [h]; omega
            · exact hrs x h) (by omega)

/-- The result of `combiner` on a file whose first record has a positive value. -/
theorem combiner_eq (fuel : Nat) (r : KeyValue) (rs : List KeyValue)
    (hv : ∀ x ∈ r :: rs, validRec x) (hpos : r.value > 0)
    (hrange : ∀ x ∈ r :: rs, x.value + rs.length ≤ INT_MAX) (hfuel : rs.length + 3 ≤ fuel) :
    combiner fuel (encodeFile (r :: rs)) = .done (encodeFile (combineRecs r rs)) := by
  obtain ⟨k, rfl⟩ : ∃ k, fuel = k + 1 := ⟨fuel - 1, by omega⟩
  have hr : validRec r := hv r (List.mem_cons_self _ _)
  have hv' : ∀ x ∈ rs, validRec x := fun x hx => hv x (List.mem_cons_of_mem _ hx)
  have hrd := readKV_line [] r (encodeFile rs) (by simp) hr
  have e : encodeFile (r :: rs) = [] ++ showLine r ++ encodeFile rs := by simp [encodeFile]
  have hk : ¬ r.key = [] := valid_key_ne r hr
  unfold combiner
  simp only [combiner_loop, IStream.open_, Bool.false_eq_true, if_false]
  rw [e, hrd]
  simp only []
  rw [if_neg hk, if_pos hpos, combiner_loop_stored k rs r [] hk hv' hrange (by omega)]
  simp [Run.map]

/-! ## What `combiner` computes -/

theorem keySorted_tail (b : KeyValue) (rs : List KeyValue) (h : keySorted (b :: rs)) :
    keySorted rs := (List.pairwise_cons.1 h).2

theorem keySorted_head (b : KeyValue) (rs : List KeyValue) (h : keySorted (b :: rs)) :
    ∀ y ∈ rs, strLt y.key b.key = false := (List.pairwise_cons.1 h).1

theorem keySorted_skip (b r : KeyValue) (rs : List KeyValue) (h : keySorted (b :: r :: rs)) :
    keySorted (b :: rs) := by
  have h1 := List.pairwise_cons.1 h
  have h2 := List.pairwise_cons.1 h1.2
  exact List.pairwise_cons.2 ⟨fun y hy => h1.1 y (List.mem_cons_of_mem _ hy), h2.2⟩

theorem keySorted_same_key (b : KeyValue) (v : Int) (rs : List KeyValue)
    (h : keySorted (b :: rs)) : keySorted ((⟨b.key, v⟩ : KeyValue) :: rs) := by
  have h1 := List.pairwise_cons.1 h
  exact List.pairwise_cons.2 ⟨h1.1, h1.2⟩

/-- The keys of the records `combiner` writes are strictly increasing; the first is the key of
the record stored first and the others are keys of later records. -/
theorem combineRecs_strict (b : KeyValue) (rs : List KeyValue) (h : keySorted (b :: rs)) :
    ∃ v L, combineRecs b rs = (⟨b.key, v⟩ : KeyValue) :: L ∧
      keyStrict ((⟨b.key, v⟩ : KeyValue) :: L) ∧ ∀ x ∈ L, ∃ y ∈ rs, y.key = x.key := by
  induction rs generalizing b with
  | nil => exact ⟨b.value, [], rfl, by simp [keyStrict], by simp⟩
  | cons r rs ih =>
    simp only [combineRecs]
    split
    · rename_i hk
      obtain ⟨v, L, h1, h2, h3⟩ := ih ⟨b.key, b.value + 1⟩
        (keySorted_same_key b _ rs (keySorted_skip b r rs h))
      refine ⟨v, L, h1, h2, ?_⟩
      intro x hx
      obtain ⟨y, hy, hxy⟩ := h3 x hx
      exact ⟨y, List.mem_cons_of_mem _ hy, hxy⟩
    · rename_i hk
      split
      · obtain ⟨v, L, h1, h2, h3⟩ := ih r (keySorted_tail b _ h)
        have hbr : strLt b.key r.key = true :=
          strLt_total r.key b.key (keySorted_head b _ h r (List.mem_cons_self _ _)) hk
        refine ⟨b.value, combineRecs r rs, rfl, ?_, ?_⟩
        · rw [h1]
          refine List.pairwise_cons.2 ⟨?_, h2⟩
          intro x hx
          rcases List.mem_cons.1 hx with hx | hx
          · rw [hx]; exact hbr
          · exact strLt_trans _ _ _ hbr ((List.pairwise_cons.1 h2).1 x hx)
        · intro x hx
          rw [h1] at hx
          rcases List.mem_cons.1 hx with hx | hx
          · exact ⟨r, List.mem_cons_self _ _, by rw [hx]⟩
          · obtain ⟨y, hy, hxy⟩ := h3 x hx
            exact ⟨y, List.mem_cons_of_mem _ hy, hxy⟩
      · obtain ⟨v, L, h1, h2, h3⟩ := ih b (keySorted_skip b r rs h)
        refine ⟨v, L, h1, h2, ?_⟩
        intro x hx
        obtain ⟨y, hy, hxy⟩ := h3 x hx
        exact ⟨y, List.mem_cons_of_mem _ hy, hxy⟩

theorem combineRecs_keyStrict (b : KeyValue) (rs : List KeyValue) (h : keySorted (b :: rs)) :
    keyStrict (combineRecs b rs) := by
  obtain ⟨v, L, h1, h2, _⟩ := combineRecs_strict b rs h
  rw [h1]; exact h2

/-- With positive values only, `combiner` writes exactly the keys it reads. -/
theorem combineRecs_keys (b : KeyValue) (rs : List KeyValue) (hpos : ∀ r ∈ rs, r.value > 0)
    (k : List Char) :
    k ∈ (combineRecs b rs).map KeyValue.key ↔ k = b.key ∨ k ∈ rs.map KeyValue.key := by
  induction rs generalizing b with
  | nil => simp [combineRecs]
  | cons r rs ih =>
    have hpos' : ∀ x ∈ rs, x.value > 0 := fun x hx => hpos x (List.mem_cons_of_mem _ hx)
    simp only [combineRecs]
    split
    · rename_i hk
      rw [ih ⟨b.key, b.value + 1⟩ hpos']
      simp only [List.map_cons, List.mem_cons, hk]
      tauto
    · rw [if_pos (hpos r (List.mem_cons_self _ _))]
      simp only [List.map_cons, List.mem_cons]
      rw [ih r hpos']
  
/-- With values `1` only, the value `combiner` writes for a key is the number of records with
this key (the record stored first counts with its value). -/
theorem combineRecs_count (b : KeyValue) (rs : List KeyValue) (hone : ∀ r ∈ rs, r.value = 1)
    (h : keySorted (b :: rs)) :
    ∀ x ∈ combineRecs b rs,
      x.value = (if x.key = b.key then b.value else 0)
        + (rs.countP (fun r => decide (r.key = x.key)) : Nat) := by
  induction rs generalizing b with
  | nil =>
    intro x hx
    simp only [combineRecs, List.mem_singleton] at hx
    simp [hx]
  | cons r rs ih =>
    have hone' : ∀ x ∈ rs, x.value = 1 := fun x hx => hone x (List.mem_cons_of_mem _ hx)
    have hr1 : r.value = 1 := hone r (List.mem_cons_self _ _)
    intro x hx
    simp only [combineRecs] at hx
    rw [List.countP_cons]
    split at hx
    · rename_i hk
      have := ih ⟨b.key, b.value + 1⟩ hone'
        (keySorted_same_key b _ rs (keySorted_skip b r rs h)) x hx
      simp only [] at this
      rw [this, hk]
      by_cases hxb : x.key = b.key
      · simp only [hxb, if_true, decide_True]
        push_cast
        ring
      · have : ¬ b.key = x.key := fun e => hxb e.symm
        simp [hxb, this]
    · rename_i hk
      rw [if_pos (by omega)] at hx
      have hbr : strLt b.key r.key = true :=
        strLt_total r.key b.key (keySorted_head b _ h r (List.mem_cons_self _ _)) hk
      rcases List.mem_cons.1 hx with hx | hx
      · subst hx
        have h0 : rs.countP (fun y => decide (y.key = x.key)) = 0 := by
          rw [List.countP_eq_zero]
          intro y hy
          have hy1 : strLt y.key r.key = false :=
            keySorted_head r rs (keySorted_tail x _ h) y hy
          have hy2 : strLt x.key y.key = true := strLt_le_trans _ _ _ hbr hy1
          simpa using fun e => strLt_ne _ _ hy2 e.symm
        simp [h0, hk]
      · have hrec := ih r hone' (keySorted_tail b _ h) x hx
        obtain ⟨v, L, h1, h2, h3⟩ := combineRecs_strict r rs (keySorted_tail b _ h)
        have hxr : strLt x.key r.key = false := by
          rw [h1] at hx
          rcases List.mem_cons.1 hx with hx | hx
          · rw [hx]; exact strLt_irrefl _
          · exact strLt_asymm _ _ ((List.pairwise_cons.1 h2).1 x hx)
        have hbx : strLt b.key x.key = true := strLt_le_trans _ _ _ hbr hxr
        have hne : ¬ x.key = b.key := fun e => strLt_ne _ _ hbx e.symm
        rw [hrec, hr1, if_neg hne]
        by_cases hxr' : x.key = r.key
        · simp [hxr']
          ring
        · have : ¬ r.key = x.key := fun e => hxr' e.symm
          simp [hxr', this]

/-! ## The scan of `split_file` -/

/-- On a stream that has failed the scan never ends: `get` returns `EOF` without setting
`eofbit`. -/
theorem scan_line_failed (fuel : Nat) (d : List Char) (p : Nat) :
    scan_line fuel ⟨d, p, false, true⟩ = .nofuel := by
  induction fuel with
  | zero => rfl
  | succ n ih =>
    simp only [scan_line, IfStream.get, IfStream.good]
    simpa using ih

/-- A scan that ends on a good stream either stops right after a line terminator, leaving the
stream good, or reaches the end of the file, leaving it failed. -/
theorem scan_line_done (fuel : Nat) (d : List Char) (p : Nat) (s : IfStream)
    (h : scan_line fuel ⟨d, p, false, false⟩ = .done s) :
    s.data = d ∧ ((s.eofbit = false ∧ s.failbit = false ∧ 1 ≤ s.pos ∧
      d[s.pos - 1]? = some '\n') ∨ s.failbit = true) := by
  induction fuel generalizing p with
  | zero => simp [scan_line] at h
  | succ n ih =>
    simp only [scan_line, IfStream.get, IfStream.good] at h
    cases hc : d[p]? with
    | none =>
      simp only [hc] at h
      simp only [Bool.not_false, Bool.and_self, if_true, Bool.not_true, Bool.and_false,
        Bool.false_eq_true, if_false, Run.done.injEq] at h
      subst h
      exact ⟨rfl, Or.inr rfl⟩
    | some c =>
      simp only [hc] at h
      by_cases hnl : c = '\n'
      · subst hnl
        simp only [Bool.not_false, Bool.and_self, if_true, bne_self_eq_false, Bool.false_and,
          Bool.false_eq_true, if_false, Run.done.injEq] at h
        subst h
        exact ⟨rfl, Or.inl ⟨rfl, rfl, by simp, by simpa using hc⟩⟩
      · have hne : (some c != some '\n') = true := by simpa using hnl
        simp only [Bool.not_false, Bool.and_self, if_true, hne] at h
        exact ih (p + 1) h

/-- A larger iteration budget does not change the result of a scan that ends. -/
theorem scan_line_mono (fuel k : Nat) (s s' : IfStream) (h : scan_line fuel s = .done s') :
    scan_line (fuel + k) s = .done s' := by
  induction fuel generalizing s with
  | zero => simp [scan_line] at h
  | succ n ih =>
    have e : n + 1 + k = (n + k) + 1 := by omega
    rw [e]
    simp only [scan_line] at h ⊢
    split
    · rename_i hc
      rw [if_pos hc] at h
      exact ih _ h
    · rename_i hc
      rw [if_neg hc] at h
      exact h

/-! ## The blocks of `split_file` -/

theorem toSizeT_nat (n : Nat) : toSizeT (n : Int) = n := by
  simp [toSizeT]

theorem split_loop_boundaries (fuel filesize mc : Nat) (file : List Char) (k n : Nat)
    (block : Block) (in_ : IfStream) (blocks res : List Block)
    (hd : in_.data = file)
    (h1 : ∀ b ∈ blocks.dropLast, afterNewline file b)
    (h2 : in_.failbit = false → ∀ b ∈ blocks, afterNewline file b)
    (h : split_loop fuel filesize mc k n block in_ blocks = .done res) :
    ∀ b ∈ res.dropLast, afterNewline file b := by
  induction k generalizing n block in_ blocks with
  | zero =>
    simp only [split_loop, Run.done.injEq] at h
    subst h
    exact h1
  | succ k ih =>
    simp only [split_loop] at h
    obtain ⟨d, p, e, f⟩ := in_
    simp only [] at hd h2
    subst hd
    cases f with
    | true =>
      simp only [IfStream.seekg, if_true] at h
      rw [scan_line_failed] at h
      simp at h
    | false =>
      have hall := h2 rfl
      simp only [IfStream.seekg, Bool.false_eq_true, if_false] at h
      cases hs : scan_line fuel ⟨d, filesize / mc * (n + 1), false, false⟩ with
      | undefined => rw [hs] at h; simp at h
      | nofuel => rw [hs] at h; simp at h
      | done s =>
        rw [hs] at h
        simp only [] at h
        obtain ⟨hsd, hcase⟩ := scan_line_done fuel d _ s hs
        refine ih (n + 1) _ _ _ ?_ ?_ ?_ h
        · rcases hcase with ⟨h3, h4, _, _⟩ | h3
          · simp [IfStream.tellg, IfStream.good, h3, h4, hsd]
          · unfold IfStream.tellg IfStream.good
            rw [h3]; simpa using hsd
        · simpa using hall
        · intro hf b hb
          rcases hcase with ⟨h3, h4, h5, h6⟩ | h3
          · rcases List.mem_append.1 hb with hb | hb
            · exact hall b hb
            · simp only [List.mem_singleton] at hb
              subst hb
              simp only [IfStream.tellg, IfStream.good, h3, h4, Bool.not_false, Bool.and_self,
                if_true, toSizeT_nat]
              exact ⟨h5, h6⟩
          · exfalso
            unfold IfStream.tellg IfStream.good at hf
            rw [h3] at hf
            simp at hf

/-! ## Independence of the iteration budget -/

/-- A larger iteration budget does not change the result of a `split_file` loop that ends. -/
theorem split_loop_mono (fuel j filesize mc k n : Nat) (block : Block) (in_ : IfStream)
    (blocks res : List Block)
    (h : split_loop fuel filesize mc k n block in_ blocks = .done res) :
    split_loop (fuel + j) filesize mc k n block in_ blocks = .done res := by
  induction k generalizing n block in_ blocks with
  | zero => simpa [split_loop] using h
  | succ k ih =>
    simp only [split_loop] at h ⊢
    cases hs : scan_line fuel (in_.seekg (filesize / mc * (n + 1))) with
    | undefined => rw [hs] at h; simp at h
    | nofuel => rw [hs] at h; simp at h
    | done s =>
      rw [hs] at h
      rw [scan_line_mono fuel j _ s hs]
      exact ih _ _ _ _ h

/-- A larger iteration budget does not change the result of `split_file` when it returns. -/
theorem split_file_mono (fuel j : Nat) (file : List Char) (n : Nat) (res : List Block)
    (h : split_file fuel file n = .done res) : split_file (fuel + j) file n = .done res := by
  unfold split_file at h ⊢
  split
  · rename_i hpos
    rw [if_pos hpos] at h
    exact split_loop_mono fuel j _ _ _ _ _ _ _ _ h
  · rename_i hpos
    rw [if_neg hpos] at h
    exact h

/-- A larger iteration budget does not change the outcome of a `combiner` loop that ends,
by returning or by undefined behaviour. -/
theorem combiner_loop_mono (fuel j : Nat) (in_ : IStream) (kvs : List KeyValue)
    (prev_key : List Char) (h : combiner_loop fuel in_ kvs prev_key ≠ .nofuel) :
    combiner_loop (fuel + j) in_ kvs prev_key = combiner_loop fuel in_ kvs prev_key := by
  induction fuel generalizing in_ kvs prev_key with
  | zero => exact absurd rfl h
  | succ n ih =>
    have e : n + 1 + j = (n + j) + 1 := by omega
    rw [e]
    simp only [combiner_loop] at h ⊢
    split
    · rfl
    · rename_i he
      rw [if_neg he] at h
      split
      · rename_i hk
        rw [if_pos hk] at h
        cases kvs with
        | nil => rfl
        | cons back older =>
          simp only [] at h ⊢
          split
          · rfl
          · rename_i hm
            rw [if_neg hm] at h
            exact ih _ _ _ h
      · rename_i hk
        rw [if_neg hk] at h
        split
        · rename_i hp
          rw [if_pos hp] at h
          exact ih _ _ _ h
        · rename_i hp
          rw [if_neg hp] at h
          exact ih _ _ _ h

/-- A larger iteration budget does not change the outcome of `combiner` when it ends. -/
theorem combiner_mono (fuel j : Nat) (file : List Char) (h : combiner fuel file ≠ .nofuel) :
    combiner (fuel + j) file = combiner fuel file := by
  unfold combiner at h ⊢
  rw [combiner_loop_mono fuel j _ _ _ (fun h0 => h (by rw [h0]; rfl))]

/-! ## The claims -/

theorem encodeFile_flatten (parts : List (List KeyValue)) :
    (parts.map encodeFile).flatten = encodeFile parts.flatten := by
  induction parts with
  | nil => rfl
  | cons p ps ih => simp [encodeFile_append, ih]

/-- C1. For map files holding valid records sorted by key, at least one file and
`reducers_count >= 1`, `shuffle` returns, and the concatenation of the partition files it
writes, in index order, is the text of a list of records that is sorted ascending by key and
is a permutation of all the records of all the map files. -/
theorem shuffle_sorted_perm (fuel R : Nat) (files : List (List KeyValue))
    (hR : 1 ≤ R) (hne : files ≠ []) (hv : ∀ f ∈ files, ∀ r ∈ f, validRec r)
    (hs : ∀ f ∈ files, keySorted f) (hfuel : totalLen files < fuel) :
    ∃ out : List (List Char), shuffle fuel R (files.map encodeFile) = .done out ∧
      ∃ merged : List KeyValue, out.flatten = encodeFile merged ∧ keySorted merged ∧
        merged.Perm files.flatten := by
  have hk : ∀ c ∈ files, ∀ r ∈ c, r.key ≠ [] := fun c hc r hr => valid_key_ne r (hv c hc r hr)
  refine ⟨_, shuffle_eq fuel R files hR hne hv hfuel, mergeSeq fuel files, ?_, ?_, ?_⟩
  · rw [encodeFile_flatten, cutParts_flatten]; rfl
  · exact mergeSeq_sorted fuel files hk hs
  · exact mergeSeq_perm fuel files hk hfuel

theorem shuffle_sorted_perm_witness :
    ∃ out : List (List Char),
      shuffle 10 2 ([[⟨['a'], 1⟩, ⟨['c'], 1⟩], [⟨['b'], 2⟩, ⟨['c'], 5⟩]].map encodeFile)
        = .done out ∧
      ∃ merged : List KeyValue, out.flatten = encodeFile merged ∧ keySorted merged ∧
        merged.Perm [[⟨['a'], 1⟩, ⟨['c'], 1⟩], [⟨['b'], 2⟩, ⟨['c'], 5⟩]].flatten :=
  shuffle_sorted_perm 10 2 [[⟨['a'], 1⟩, ⟨['c'], 1⟩], [⟨['b'], 2⟩, ⟨['c'], 5⟩]]
    (by decide) (by decide) (by decide) (by decide) (by decide)

/-- C2. For map files holding valid records sorted by key, at least one file and
`reducers_count >= 1`, the partition files `shuffle` writes hold the records of the map files,
and no key occurs in two different partition files: a record of an earlier partition file has
a key different from the key of every record of a later one. -/
theorem shuffle_key_in_one_partition (fuel R : Nat) (files : List (List KeyValue))
    (hR : 1 ≤ R) (hne : files ≠ []) (hv : ∀ f ∈ files, ∀ r ∈ f, validRec r)
    (hs : ∀ f ∈ files, keySorted f) (hfuel : totalLen files < fuel) :
    ∃ parts : List (List KeyValue),
      shuffle fuel R (files.map encodeFile) = .done (parts.map encodeFile) ∧
      parts.flatten.Perm files.flatten ∧
      parts.Pairwise (fun p q => ∀ a ∈ p, ∀ b ∈ q, a.key ≠ b.key) := by
  have hk : ∀ c ∈ files, ∀ r ∈ c, r.key ≠ [] := fun c hc r hr => valid_key_ne r (hv c hc r hr)
  refine ⟨_, shuffle_eq fuel R files hR hne hv hfuel, ?_, ?_⟩
  · rw [cutParts_flatten]
    exact mergeSeq_perm fuel files hk hfuel
  · have := cutParts_separated (toInt32 (((files.map encodeFile).map List.length).sum / R))
      (mergeSeq fuel files) [] [] (mergeSeq_sorted fuel files hk hs) (by simp)
      (fun b _ => strLt_nil_right b.key)
    exact this.imp (fun hpq a ha b hb => strLt_ne _ _ (hpq a ha b hb))

theorem shuffle_key_in_one_partition_witness :
    ∃ parts : List (List KeyValue),
      shuffle 10 3 ([[⟨['a'], 1⟩, ⟨['c'], 1⟩], [⟨['b'], 2⟩, ⟨['c'], 5⟩]].map encodeFile)
        = .done (parts.map encodeFile) ∧
      parts.flatten.Perm [[⟨['a'], 1⟩, ⟨['c'], 1⟩], [⟨['b'], 2⟩, ⟨['c'], 5⟩]].flatten ∧
      parts.Pairwise (fun p q => ∀ a ∈ p, ∀ b ∈ q, a.key ≠ b.key) :=
  shuffle_key_in_one_partition 10 3 [[⟨['a'], 1⟩, ⟨['c'], 1⟩], [⟨['b'], 2⟩, ⟨['c'], 5⟩]]
    (by decide) (by decide) (by decide) (by decide) (by decide)

/-- C3 (the code at a failing input). On the 7-byte file `"a\nb\nc\nd"` with 4 mappers
`split_file` returns, for every iteration budget from 10 on, the blocks
`[0,2) [2,4) [4,4) [4,6)`: the last block ends at 6, not at the file size 7, and byte 6
belongs to no block. -/
theorem split_file_loses_tail (k : Nat) :
    split_file (10 + k) ['a', '\n', 'b', '\n', 'c', '\n', 'd'] 4
      = .done [⟨0, 2⟩, ⟨2, 4⟩, ⟨4, 4⟩, ⟨4, 6⟩] :=
  split_file_mono 10 k _ 4 _ (by decide)

/-- C4 (the code at a failing input). On the map file `"a 2\na 3\n"` `combiner` writes
`"a 3\n"`, for every iteration budget from 10 on: the second record adds one to the stored
value 2, while the values sum to 5. -/
theorem combiner_adds_one (k : Nat) :
    combiner (10 + k) ['a', ' ', '2', '\n', 'a', ' ', '3', '\n']
      = .done ['a', ' ', '3', '\n'] :=
  (combiner_mono 10 k _ (by decide)).trans (by decide)

/-- C5 (the code at a failing input). On the non-empty, sorted map file `"a 0\n"` `combiner`
stores no record, and the read at the end of the file yields the key `""`, equal to
`prev_key`: `kvs.back()` is evaluated on the empty list, which is undefined behaviour (for
every iteration budget from 10 on). -/
theorem combiner_undefined_without_positive (k : Nat) :
    combiner (10 + k) ['a', ' ', '0', '\n'] = .undefined :=
  (combiner_mono 10 k _ (by decide)).trans (by decide)

/-- Below the range of `int`: for map files that are the exact text of valid records, at
least one file, `reducers_count = R >= 1` and a target size `total_size / R` below `2^31`,
`shuffle` returns and creates at least one and at most `R` partition files. -/
theorem shuffle_at_most_R_partitions (fuel R : Nat) (files : List (List KeyValue))
    (hR : 1 ≤ R) (hne : files ≠ []) (hv : ∀ f ∈ files, ∀ r ∈ f, validRec r)
    (hsize : ((files.map encodeFile).map List.length).sum / R < 2147483648)
    (hfuel : totalLen files < fuel) :
    ∃ out : List (List Char), shuffle fuel R (files.map encodeFile) = .done out ∧
      1 ≤ out.length ∧ out.length ≤ R := by
  have hk : ∀ c ∈ files, ∀ r ∈ c, r.key ≠ [] := fun c hc r hr => valid_key_ne r (hv c hc r hr)
  refine ⟨_, shuffle_eq fuel R files hR hne hv hfuel, ?_⟩
  rw [toInt32_small _ hsize, List.length_map]
  obtain ⟨k, hlen, hle⟩ := cutParts_count (((files.map encodeFile).map List.length).sum / R)
    (mergeSeq fuel files) [] []
  rw [hlen]
  have hsz : (encodeFile (mergeSeq fuel files)).length
      = ((files.map encodeFile).map List.length).sum := by
    rw [encodeFile_length_perm _ _ (mergeSeq_perm fuel files hk hfuel), encodeFile_flatten_length]
  rw [hsz] at hle
  simp only [encodeFile, List.length_nil, Nat.zero_add] at hle
  generalize ((files.map encodeFile).map List.length).sum = total at hle
  refine ⟨by omega, ?_⟩
  by_contra hcon
  have hkR : R ≤ k := by omega
  have h1 : R * (total / R + 1) ≤ k * (total / R + 1) := Nat.mul_le_mul_right _ hkR
  have h2 : total < R * (total / R + 1) := by
    have := Nat.div_add_mod total R
    have := Nat.mod_lt total (show R > 0 by omega)
    rw [Nat.mul_add, Nat.mul_one]
    omega
  omega

/-- Whenever `split_file` returns, every block but the last ends right after a line
terminator: its `to` is at least 1 and the byte of the file at offset `to - 1` is `'\n'`. -/
theorem split_file_boundaries_after_newline (fuel : Nat) (file : List Char) (n : Nat)
    (blocks : List Block) (h : split_file fuel file n = .done blocks) :
    ∀ b ∈ blocks.dropLast, afterNewline file b := by
  unfold split_file at h
  split at h
  · exact split_loop_boundaries fuel file.length n file n 0 ⟨0, 0⟩ ⟨file, 0, false, false⟩ []
      blocks rfl (by simp) (by simp) h
  · simp only [Run.done.injEq] at h
    subst h
    simp

/-- C9 (the code at a failing input). For an empty input file `split_file` returns no block,
and the map phase of `run` with `mappers_count = 1` still starts the mapper for index 0 and
evaluates `blocks[0]` outside the empty vector. -/
theorem run_map_phase_on_empty_input (fuel : Nat) :
    split_file fuel [] 1 = .done [] ∧ map_phase [] 1 = [(0, none)] :=
  ⟨by simp [split_file], by decide⟩

/-- C10. For a record with a non-empty key without white space and a value in the range of
`int`, `operator>>` applied to the text `operator<<` writes for it, followed by `"\n"` (and
any further text), reads the same record; and the text of a sequence of such lines reads back,
record by record, as the same sequence. -/
theorem codec_round_trip (r : KeyValue) (recs : List KeyValue) (t : List Char)
    (hr : validRec r) (hrecs : ∀ x ∈ recs, validRec x) :
    (readKV (IStream.open_ (showKV r ++ '\n' :: t))).1 = r ∧
      (readN recs.length (IStream.open_ (encodeFile recs))).1 = recs := by
  constructor
  · have := readKV_line [] r t (by simp) hr
    simp only [showLine, List.nil_append, List.append_assoc, List.singleton_append] at this
    simp [IStream.open_, this]
  · exact readN_encode [] recs (by simp) hrecs

theorem codec_round_trip_witness :
    (readKV (IStream.open_ (showKV ⟨['a', 'b'], -12⟩ ++ '\n' :: []))).1 = ⟨['a', 'b'], -12⟩ ∧
      (readN [(⟨['a'], 1⟩ : KeyValue), ⟨['b'], -2⟩].length
        (IStream.open_ (encodeFile [⟨['a'], 1⟩, ⟨['b'], -2⟩]))).1
        = [⟨['a'], 1⟩, ⟨['b'], -2⟩] :=
  codec_round_trip ⟨['a', 'b'], -12⟩ [⟨['a'], 1⟩, ⟨['b'], -2⟩] [] (by decide) (by decide)

/-! ## Where the blocks of `split_file` end -/

/-- A scan that ends, started on a good stream with a line terminator ahead, stops right after
the first one and leaves the stream good. -/
theorem scan_line_newline (fuel : Nat) (d : List Char) (p : Nat) (s : IfStream)
    (h : scan_line fuel ⟨d, p, false, false⟩ = .done s) (hnl : '\n' ∈ d.drop p) :
    s = ⟨d, past_newline_from d p, false, false⟩ := by
  induction fuel generalizing p with
  | zero => simp [scan_line] at h
  | succ n ih =>
    simp only [scan_line, IfStream.get, IfStream.good] at h
    cases hc : d[p]? with
    | none =>
      have : d.length ≤ p := by
        by_contra hlt
        rw [List.getElem?_eq_getElem (by omega)] at hc
        simp at hc
      rw [List.drop_eq_nil_of_le this] at hnl
      simp at hnl
    | some c =>
      obtain ⟨hp, hpc⟩ := List.getElem?_eq_some.1 hc
      have hdrop : d.drop p = c :: d.drop (p + 1) := by
        rw [List.drop_eq_getElem_cons hp, hpc]
      simp only [hc] at h
      by_cases hcn : c = '\n'
      · subst hcn
        simp only [Bool.not_false, Bool.and_self, if_true, bne_self_eq_false, Bool.false_and,
          Bool.false_eq_true, if_false, Run.done.injEq] at h
        subst h
        simp [past_newline_from, hdrop, pastNewline]
      · have hne : (some c != some '\n') = true := by simpa using hcn
        simp only [Bool.not_false, Bool.and_self, if_true, hne] at h
        rw [hdrop] at hnl
        have hnl' : '\n' ∈ d.drop (p + 1) := by
          rcases List.mem_cons.1 hnl with h1 | h1
          · exact absurd h1.symm hcn
          · exact h1
        rw [ih (p + 1) h hnl']
        simp only [past_newline_from, hdrop, pastNewline, hcn, if_false]
        congr 1
        omega

theorem split_loop_length (fuel filesize mc k n : Nat) (block : Block) (in_ : IfStream)
    (blocks res : List Block)
    (h : split_loop fuel filesize mc k n block in_ blocks = .done res) :
    res.length = blocks.length + k := by
  induction k generalizing n block in_ blocks with
  | zero =>
    simp only [split_loop, Run.done.injEq] at h
    subst h; rfl
  | succ k ih =>
    simp only [split_loop] at h
    cases hs : scan_line fuel (in_.seekg (filesize / mc * (n + 1))) with
    | undefined => rw [hs] at h; simp at h
    | nofuel => rw [hs] at h; simp at h
    | done s =>
      rw [hs] at h
      have := ih _ _ _ _ h
      simp only [List.length_append, List.length_singleton] at this
      omega

/-- The blocks pushed by the loop of `split_file`: block `i` ends right after the first line
terminator at or after `(filesize / mappers_count) * (i + 1)`, when there is one. -/
theorem split_loop_ends (fuel mc : Nat) (file : List Char) (k n : Nat)
    (block : Block) (in_ : IfStream) (blocks res : List Block)
    (hd : in_.data = file) (hlen : blocks.length = n)
    (h : split_loop fuel file.length mc k n block in_ blocks = .done res) :
    ∀ i b, res[i]? = some b →
      (i < n → blocks[i]? = some b) ∧
      (n ≤ i → '\n' ∈ file.drop (file.length / mc * (i + 1)) →
        b.to_ = past_newline_from file (file.length / mc * (i + 1))) := by
  induction k generalizing n block in_ blocks with
  | zero =>
    simp only [split_loop, Run.done.injEq] at h
    subst h
    intro i b hb
    refine ⟨fun _ => hb, fun hn _ => ?_⟩
    have := (List.getElem?_eq_some.1 hb).1
    omega
  | succ k ih =>
    simp only [split_loop] at h
    obtain ⟨d, p, e, f⟩ := in_
    simp only [] at hd
    subst hd
    cases f with
    | true =>
      simp only [IfStream.seekg, if_true] at h
      rw [scan_line_failed] at h
      simp at h
    | false =>
      simp only [IfStream.seekg, Bool.false_eq_true, if_false] at h
      cases hs : scan_line fuel ⟨d, d.length / mc * (n + 1), false, false⟩ with
      | undefined => rw [hs] at h; simp at h
      | nofuel => rw [hs] at h; simp at h
      | done s =>
        rw [hs] at h
        simp only [] at h
        have hsd := (scan_line_done fuel d _ s hs).1
        have hdata : s.tellg.2.data = d := by
          unfold IfStream.tellg
          split <;> simpa using hsd
        have hrec := ih (n + 1) _ _ _ hdata (by simp [hlen]) h
        intro i b hb
        obtain ⟨h1, h2⟩ := hrec i b hb
        refine ⟨fun hi => ?_, fun hi hnl => ?_⟩
        · have := h1 (by omega)
          rwa [List.getElem?_append_left (by omega)] at this
        · rcases Nat.eq_or_lt_of_le hi with heq | hlt
          · subst heq
            have := h1 (by omega)
            rw [List.getElem?_append_right (by omega)] at this
            simp only [hlen, Nat.sub_self, List.getElem?_cons_zero, Option.some.injEq] at this
            rw [← this]
            rw [scan_line_newline fuel d _ s hs hnl]
            simp [IfStream.tellg, IfStream.good, toSizeT_nat]
          · exact h2 (by omega) hnl

/-! ## `combiner` on files that start with values that are not positive -/

/-- Records with a value that is not positive are skipped as long as no record is stored. -/
theorem combiner_loop_skip (fuel : Nat) (ws : List Char) (pre : List KeyValue) (r : KeyValue)
    (post : List KeyValue) (hws : ∀ w ∈ ws, isspace w = true)
    (hv : ∀ x ∈ pre ++ r :: post, validRec x) (hpre : ∀ x ∈ pre, x.value ≤ 0)
    (hr : r.value > 0) :
    combiner_loop (pre.length + 1 + fuel) ⟨ws ++ encodeFile (pre ++ r :: post), false, false⟩
        [] []
      = combiner_loop fuel ⟨'\n' :: encodeFile post, false, false⟩ [r] r.key := by
  induction pre generalizing ws with
  | nil =>
    have hrv : validRec r := hv r (by simp)
    have hrd := readKV_line ws r (encodeFile post) hws hrv
    have e : ws ++ encodeFile ([] ++ r :: post) = ws ++ showLine r ++ encodeFile post := by
      simp [encodeFile]
    have hk : ¬ r.key = [] := valid_key_ne r hrv
    have ef : ([] : List KeyValue).length + 1 + fuel = fuel + 1 := by simp; omega
    rw [ef]
    simp only [combiner_loop, Bool.false_eq_true, if_false]
    rw [e, hrd]
    simp only []
    rw [if_neg hk, if_pos hr]
  | cons x xs ih =>
    have hxv : validRec x := hv x (by simp)
    have hrd := readKV_line ws x (encodeFile (xs ++ r :: post)) hws hxv
    have e : ws ++ encodeFile (x :: xs ++ r :: post)
        = ws ++ showLine x ++ encodeFile (xs ++ r :: post) := by
      simp [encodeFile]
    have hk : ¬ x.key = [] := valid_key_ne x hxv
    have hx0 : ¬ x.value > 0 := by
      have := hpre x (List.mem_cons_self _ _)
      omega
    have ef : (x :: xs).length + 1 + fuel = (xs.length + 1 + fuel) + 1 := by
      simp only [List.length_cons]; omega
    rw [ef]
    simp only [combiner_loop, Bool.false_eq_true, if_false]
    rw [e, hrd]
    simp only []
    rw [if_neg hk, if_neg hx0]
    have := ih ['\n'] nl_space (fun y hy => hv y (List.mem_cons_of_mem _ hy))
      (fun y hy => hpre y (List.mem_cons_of_mem _ hy))
    simpa using this

/-- When no record of the file has a positive value, `combiner` evaluates `kvs.back()` on the
empty list. -/
theorem combiner_loop_nothing_stored (fuel : Nat) (ws : List Char) (rs : List KeyValue)
    (hws : ∀ w ∈ ws, isspace w = true) (hv : ∀ x ∈ rs, validRec x)
    (hrs : ∀ x ∈ rs, x.value ≤ 0) :
    combiner_loop (rs.length + 1 + fuel) ⟨ws ++ encodeFile rs, false, false⟩ [] []
      = .undefined := by
  induction rs generalizing ws with
  | nil =>
    have hrd := readKV_end ws hws
    have ef : ([] : List KeyValue).length + 1 + fuel = fuel + 1 := by simp; omega
    rw [ef]
    simp only [combiner_loop, Bool.false_eq_true, if_false, encodeFile, List.append_nil]
    rw [hrd]
    simp
  | cons x xs ih =>
    have hxv : validRec x := hv x (List.mem_cons_self _ _)
    have hrd := readKV_line ws x (encodeFile xs) hws hxv
    have e : ws ++ encodeFile (x :: xs) = ws ++ showLine x ++ encodeFile xs := by
      simp [encodeFile]
    have hk : ¬ x.key = [] := valid_key_ne x hxv
    have hx0 : ¬ x.value > 0 := by
      have := hrs x (List.mem_cons_self _ _)
      omega
    have ef : (x :: xs).length + 1 + fuel = (xs.length + 1 + fuel) + 1 := by
      simp only [List.length_cons]; omega
    rw [ef]
    simp only [combiner_loop, Bool.false_eq_true, if_false]
    rw [e, hrd]
    simp only []
    rw [if_neg hk, if_neg hx0]
    have := ih ['\n'] nl_space (fun y hy => hv y (List.mem_cons_of_mem _ hy))
      (fun y hy => hrs y (List.mem_cons_of_mem _ hy))
    simpa using this

/-- The first record with a positive value splits a file that has one. -/
theorem first_positive (recs : List KeyValue) (h : ∃ r ∈ recs, r.value > 0) :
    ∃ pre r post, recs = pre ++ r :: post ∧ (∀ x ∈ pre, x.value ≤ 0) ∧ r.value > 0 := by
  induction recs with
  | nil => obtain ⟨r, hr, _⟩ := h; simp at hr
  | cons x xs ih =>
    by_cases hx : x.value > 0
    · exact ⟨[], x, xs, rfl, by simp, hx⟩
    · have h' : ∃ r ∈ xs, r.value > 0 := by
        obtain ⟨r, hr, hpos⟩ := h
        rcases List.mem_cons.1 hr with h1 | h1
        · rw [h1] at hpos; exact absurd hpos hx
        · exact ⟨r, h1, hpos⟩
      obtain ⟨pre, r, post, h1, h2, h3⟩ := ih h'
      refine ⟨x :: pre, r, post, by rw [h1]; rfl, ?_, h3⟩
      intro y hy
      rcases List.mem_cons.1 hy with h4 | h4
      · rw [h4]; omega
      · exact h2 y h4

/-- The result of `combiner` on a file of valid records whose first record with a positive
value is `r`. -/
theorem combiner_eq_skip (fuel : Nat) (pre : List KeyValue) (r : KeyValue)
    (post : List KeyValue) (hv : ∀ x ∈ pre ++ r :: post, validRec x)
    (hpre : ∀ x ∈ pre, x.value ≤ 0) (hr : r.value > 0)
    (hrange : ∀ x ∈ r :: post, x.value + post.length ≤ INT_MAX)
    (hfuel : (pre ++ r :: post).length + 2 ≤ fuel) :
    combiner fuel (encodeFile (pre ++ r :: post))
      = .done (encodeFile (combineRecs r post)) := by
  simp only [List.length_append, List.length_cons] at hfuel
  obtain ⟨k, rfl⟩ : ∃ k, fuel = pre.length + 1 + k := ⟨fuel - (pre.length + 1), by omega⟩
  have hrv : validRec r := hv r (by simp)
  unfold combiner
  have := combiner_loop_skip k [] pre r post (by simp) hv hpre hr
  simp only [List.nil_append] at this
  rw [IStream.open_, this,
    combiner_loop_stored k post r [] (valid_key_ne r hrv)
      (fun x hx => hv x (by simp [hx])) hrange (by omega)]
  simp [Run.map]

/-- The keys `combiner` writes: the key of the record stored first and the keys of the later
records with a positive value. -/
theorem combineRecs_keys_positive (b : KeyValue) (rs : List KeyValue) (k : List Char) :
    k ∈ (combineRecs b rs).map KeyValue.key ↔
      k = b.key ∨ ∃ r ∈ rs, r.key = k ∧ r.value > 0 := by
  induction rs generalizing b with
  | nil => simp [combineRecs]
  | cons r rs ih =>
    simp only [combineRecs]
    split
    · rename_i hk
      rw [ih ⟨b.key, b.value + 1⟩]
      simp only [List.mem_cons, exists_eq_or_imp]
      constructor
      · rintro (h | h)
        · exact Or.inl h
        · exact Or.inr (Or.inr h)
      · rintro (h | h | h)
        · exact Or.inl h
        · exact Or.inl (by rw [← h.1, hk])
        · exact Or.inr h
    · split
      · rename_i hp
        simp only [List.map_cons, List.mem_cons, exists_eq_or_imp]
        rw [ih r]
        constructor
        · rintro (h | h | h)
          · exact Or.inl h
          · exact Or.inr (Or.inl ⟨h.symm, hp⟩)
          · exact Or.inr (Or.inr h)
        · rintro (h | h | h)
          · exact Or.inl h
          · exact Or.inr (Or.inl h.1.symm)
          · exact Or.inr (Or.inr h)
      · rename_i hp
        rw [ih b]
        simp only [List.mem_cons, exists_eq_or_imp]
        constructor
        · rintro (h | h)
          · exact Or.inl h
          · exact Or.inr (Or.inr h)
        · rintro (h | h | h)
          · exact Or.inl h
          · exact absurd h.2 hp
          · exact Or.inr h

/-! ## `std::min_element` returns the first smallest element -/

/-- When `x` is less than `z` and `y` is not, `x` is less than `y`. -/
theorem key_less_of_not (x y z : KeyValue) (h1 : key_less x z = true)
    (h2 : key_less y z = false) : key_less x y = true := by
  unfold key_less at h1 h2 ⊢
  split at h1
  · simp at h1
  · rename_i hx
    rw [if_neg hx]
    split
    · rfl
    · rename_i hy
      rw [if_neg hy] at h2
      split at h1
      · rename_i hz; rw [if_pos hz] at h2; simp at h2
      · rename_i hz
        rw [if_neg hz] at h2
        exact strLt_le_trans _ _ _ h1 h2

theorem min_element_from_first (xs pre : List KeyValue) (sm : Nat) (sv : KeyValue)
    (hsm : (pre ++ xs)[sm]? = some sv) (hsmlt : sm < pre.length)
    (hpre : ∀ x ∈ pre, key_less x sv = false)
    (hfirst : ∀ j y, j < sm → (pre ++ xs)[j]? = some y → key_less sv y = true) :
    ∀ v, (pre ++ xs)[min_element_from sm sv pre.length xs]? = some v →
      ∀ j y, j < min_element_from sm sv pre.length xs → (pre ++ xs)[j]? = some y →
        key_less v y = true := by
  induction xs generalizing pre sm sv with
  | nil =>
    intro v hv j y hj hy
    simp only [min_element_from] at hv hj
    rw [hsm] at hv
    simp only [Option.some.injEq] at hv
    rw [← hv]
    exact hfirst j y hj hy
  | cons x xs ih =>
    have e : pre ++ x :: xs = (pre ++ [x]) ++ xs := by simp
    have hl : (pre ++ [x]).length = pre.length + 1 := by simp
    simp only [min_element_from]
    split
    · rename_i hlt
      have h1 : ((pre ++ [x]) ++ xs)[pre.length]? = some x := by
        rw [List.getElem?_append_left (by simp), List.getElem?_append_right (by simp)]
        simp
      have h2 : ∀ y ∈ pre ++ [x], key_less y x = false := by
        intro y hy
        rcases List.mem_append.1 hy with hy | hy
        · cases hyx : key_less y x with
          | false => rfl
          | true =>
            have := key_less_trans y x sv hyx hlt
            rw [hpre y hy] at this
            exact absurd this (by simp)
        · simp only [List.mem_singleton] at hy
          rw [hy]; exact key_less_irrefl x
      have h3 : ∀ j y, j < pre.length → ((pre ++ [x]) ++ xs)[j]? = some y →
          key_less x y = true := by
        intro j y hj hy
        rw [List.append_assoc, List.getElem?_append_left hj] at hy
        have hmem : y ∈ pre := List.mem_iff_getElem?.2 ⟨j, hy⟩
        exact key_less_of_not x y sv hlt (hpre y hmem)
      have := ih (pre ++ [x]) pre.length x h1 (by simp) h2 h3
      rw [hl] at this
      rw [e]; exact this
    · rename_i hlt
      have h1 : ((pre ++ [x]) ++ xs)[sm]? = some sv := by rw [← e]; exact hsm
      have h2 : ∀ y ∈ pre ++ [x], key_less y sv = false := by
        intro y hy
        rcases List.mem_append.1 hy with hy | hy
        · exact hpre y hy
        · simp only [List.mem_singleton] at hy
          rw [hy]; simpa using hlt
      have h3 : ∀ j y, j < sm → ((pre ++ [x]) ++ xs)[j]? = some y →
          key_less sv y = true := by
        intro j y hj hy
        rw [← e] at hy
        exact hfirst j y hj hy
      have := ih (pre ++ [x]) sm sv h1 (by simp; omega) h2 h3
      rw [hl] at this
      rw [e]; exact this

/-- Every element before the one `std::min_element` returns is greater than it. -/
theorem min_element_first (kvs : List KeyValue) (v : KeyValue)
    (hv : kvs[min_element kvs]? = some v) :
    ∀ j y, j < min_element kvs → kvs[j]? = some y → key_less v y = true := by
  cases kvs with
  | nil => simp at hv
  | cons x xs =>
    have := min_element_from_first xs [x] 0 x (by simp) (by simp)
      (by intro y hy; simp only [List.mem_singleton] at hy; rw [hy]; exact key_less_irrefl x)
      (by intro j y hj; omega)
    simpa [min_element] using this v (by simpa [min_element] using hv)

/-! ## The merge is stable -/

theorem flatten_set_filter (p : KeyValue → Bool) (curs : List (List KeyValue)) (i : Nat)
    (it : KeyValue) (rs : List KeyValue) (h : curs[i]? = some (it :: rs))
    (hbefore : p it = true → ∀ j d, j < i → curs[j]? = some d → d.filter p = []) :
    curs.flatten.filter p = (it :: (curs.set i rs).flatten).filter p := by
  induction curs generalizing i with
  | nil => simp at h
  | cons c cs ih =>
    cases i with
    | zero =>
      simp only [List.getElem?_cons_zero, Option.some.injEq] at h
      subst h
      simp
    | succ j =>
      simp only [List.getElem?_cons_succ] at h
      have hrec := ih j h (fun hp j' d hj' hd =>
        hbefore hp (j' + 1) d (by omega) (by simpa using hd))
      simp only [List.set_cons_succ, List.flatten_cons, List.filter_append]
      rw [hrec]
      by_cases hp : p it = true
      · have hc : c.filter p = [] := hbefore hp 0 c (by omega) (by simp)
        simp [List.filter_cons, hp, hc]
      · simp [List.filter_cons, hp]

/-- Cursors before the chosen one hold no record with the key of the chosen record. -/
theorem pick_before (curs : List (List KeyValue)) (hk : ∀ c ∈ curs, ∀ r ∈ c, r.key ≠ [])
    (hs : ∀ c ∈ curs, keySorted c) (it : KeyValue) (rs : List KeyValue)
    (hc : curs[min_element (curs.map headOf)]? = some (it :: rs)) :
    ∀ j d, j < min_element (curs.map headOf) → curs[j]? = some d →
      ∀ x ∈ d, x.key ≠ it.key := by
  intro j d hj hd x hx
  have hmem : it :: rs ∈ curs := List.mem_iff_getElem?.2 ⟨_, hc⟩
  have hdm : d ∈ curs := List.mem_iff_getElem?.2 ⟨_, hd⟩
  have hit : it.key ≠ [] := hk _ hmem it (List.mem_cons_self _ _)
  have hv : (curs.map headOf)[min_element (curs.map headOf)]? = some it := by
    rw [List.getElem?_map, hc]; rfl
  cases d with
  | nil => simp at hx
  | cons r t =>
    have hy : (curs.map headOf)[j]? = some r := by
      rw [List.getElem?_map, hd]; rfl
    have hlt := min_element_first (curs.map headOf) it hv j r hj hy
    have hr : r.key ≠ [] := hk _ hdm r (List.mem_cons_self _ _)
    have h3 : r.key.length ≠ 0 := fun h0 => hr (List.length_eq_zero.1 h0)
    have h4 : it.key.length ≠ 0 := fun h0 => hit (List.length_eq_zero.1 h0)
    have hlt' : strLt it.key r.key = true := by simpa [key_less, h3, h4] using hlt
    have hrx : strLt x.key r.key = false := by
      rcases List.mem_cons.1 hx with h1 | h1
      · rw [h1]; exact strLt_irrefl _
      · exact (List.pairwise_cons.1 (hs _ hdm)).1 x h1
    exact fun e => strLt_ne _ _ (strLt_le_trans _ _ _ hlt' hrx) e.symm

/-- The records of a key are written in the order of the concatenated map files. -/
theorem mergeSeq_filter (fuel : Nat) (curs : List (List KeyValue))
    (hk : ∀ c ∈ curs, ∀ r ∈ c, r.key ≠ []) (hs : ∀ c ∈ curs, keySorted c)
    (hfuel : totalLen curs < fuel) (k : List Char) :
    (mergeSeq fuel curs).filter (fun r => decide (r.key = k))
      = curs.flatten.filter (fun r => decide (r.key = k)) := by
  induction fuel generalizing curs with
  | zero => omega
  | succ n ih =>
    by_cases hne : curs = []
    · subst hne; simp [mergeSeq]
    · obtain ⟨c, hc, hmin⟩ := pick_spec curs hne
      simp only [mergeSeq, hc]
      cases c with
      | nil =>
        have hall := pick_nil curs hk hmin
        have : curs.flatten = [] := by
          simp only [List.flatten_eq_nil_iff]
          exact hall
        rw [this]
      | cons it rs =>
        simp only []
        have hmem : it :: rs ∈ curs := List.mem_iff_getElem?.2 ⟨_, hc⟩
        have hlen := totalLen_set curs _ it rs hc
        have hs' : ∀ c ∈ curs.set (min_element (curs.map headOf)) rs, keySorted c := by
          intro c hc'
          rcases mem_of_mem_set curs _ rs c hc' with h1 | h1
          · exact hs c h1
          · subst h1; exact (List.pairwise_cons.1 (hs _ hmem)).2
        have hrec := ih (curs.set _ rs) (keys_set curs _ it rs _ hk hc) hs' (by omega)
        rw [flatten_set_filter _ curs _ it rs hc, List.filter_cons, List.filter_cons, hrec]
        intro hp j d hj hd
        have hkk : it.key = k := by simpa using hp
        rw [List.filter_eq_nil_iff]
        intro x hx
        have := pick_before curs hk hs it rs hc j d hj hd x hx
        simpa [hkk] using this

/-! ## Reading consumes characters -/

theorem dropWhile_length_le (p : Char → Bool) (l : List Char) :
    (l.dropWhile p).length ≤ l.length := by
  induction l with
  | nil => simp
  | cons c cs ih =>
    simp only [List.dropWhile_cons]
    split
    · simp only [List.length_cons]; omega
    · simp

theorem takeWhile_dropWhile_length (p : Char → Bool) (l : List Char) :
    (l.takeWhile p).length + (l.dropWhile p).length = l.length := by
  rw [← List.length_append, List.takeWhile_append_dropWhile]

theorem sentry_rest_le (s : IStream) : (sentry s).2.rest.length ≤ s.rest.length := by
  have hd := dropWhile_length_le isspace s.rest
  unfold sentry
  split
  · split
    · simp
    · rename_i c cs h
      rw [h] at hd
      simpa using hd
  · simp

theorem readString_measure (s : IStream) :
    (readString s []).1.length + (readString s []).2.rest.length ≤ s.rest.length := by
  have hs := sentry_rest_le s
  unfold readString
  split
  · rename_i s1 h
    rw [h] at hs
    have := takeWhile_dropWhile_length (fun c => !isspace c) s1.rest
    simp only [] at hs ⊢
    omega
  · rename_i s1 h
    rw [h] at hs
    simpa using hs

theorem readSign_le (l : List Char) : (readSign l).2.length ≤ l.length := by
  cases l with
  | nil => simp [readSign]
  | cons c t =>
    simp only [readSign]
    split
    · simp
    · split <;> simp

theorem readInt_rest_le (s : IStream) (old : Int) :
    (readInt s old).2.rest.length ≤ s.rest.length := by
  have hs := sentry_rest_le s
  unfold readInt
  split
  · rename_i s1 h
    rw [h] at hs
    have h1 := readSign_le s1.rest
    have h2 := dropWhile_length_le isdigit (readSign s1.rest).2
    simp only [] at hs ⊢
    split_ifs <;> simp only [] <;> omega
  · rename_i s1 h
    rw [h] at hs
    simpa using hs

/-- A read that yields a non-empty key consumes at least one character. -/
theorem readKV_measure (s : IStream) :
    (readKV s).2.rest.length + (if (readKV s).1.key = [] then 0 else 1) ≤ s.rest.length := by
  have h1 := readString_measure s
  have h2 := readInt_rest_le (readString s []).2 0
  simp only [readKV]
  split
  · omega
  · rename_i hk
    have : (readString s []).1.length ≠ 0 := fun h0 => hk (List.length_eq_zero.1 h0)
    omega

/-! ## The loop of `shuffle` terminates -/

theorem sum_map_set {α : Type} (g : α → Nat) (l : List α) (i : Nat) (a b : α)
    (h : l[i]? = some a) : ((l.set i b).map g).sum + g a = (l.map g).sum + g b := by
  induction l generalizing i with
  | nil => simp at h
  | cons x xs ih =>
    cases i with
    | zero =>
      simp only [List.getElem?_cons_zero, Option.some.injEq] at h
      subst h
      simp only [List.set_cons_zero, List.map_cons, List.sum_cons]
      omega
    | succ j =>
      simp only [List.getElem?_cons_succ] at h
      have := ih j h
      simp only [List.set_cons_succ, List.map_cons, List.sum_cons]
      omega

/-- With an iteration budget above the measure of its cursors the loop of `shuffle` returns. -/
theorem shuffle_loop_terminates (T : Int) (fuel : Nat) (curs : List (IStream × KeyValue))
    (prev : List Char) (closed : List (List Char)) (out : List Char)
    (hne : curs ≠ []) (hfuel : cursorMeasure curs < fuel) :
    ∃ res, shuffle_loop T fuel (curs.map Prod.fst) (curs.map Prod.snd) prev closed out
      = .done res := by
  induction fuel generalizing curs prev closed out with
  | zero => omega
  | succ n ih =>
    obtain ⟨v, hv, hlt, _⟩ := min_element_spec (curs.map Prod.snd) (by simpa using hne)
    rw [List.getElem?_map] at hv
    cases hc : curs[min_element (curs.map Prod.snd)]? with
    | none => rw [hc] at hv; simp at hv
    | some c =>
      obtain ⟨f, it⟩ := c
      simp only [shuffle_loop, List.getElem?_map, hc, Option.map_some']
      by_cases hk : it.key = []
      · refine ⟨closed ++ [out], ?_⟩
        simp [hk]
      · have hm := readKV_measure f
        have hsum := sum_map_set (fun c : IStream × KeyValue =>
            c.1.rest.length + if c.2.key = [] then 0 else 1) curs
          (min_element (curs.map Prod.snd)) (f, it) ((readKV f).2, (readKV f).1) hc
        simp only [hk, if_false] at hsum
        have hne' : curs.set (min_element (curs.map Prod.snd)) ((readKV f).2, (readKV f).1)
            ≠ [] := by
          intro h0
          have := congrArg List.length h0
          simp only [List.length_set, List.length_nil] at this
          exact hne (List.length_eq_zero.1 this)
        have hfuel' : cursorMeasure
            (curs.set (min_element (curs.map Prod.snd)) ((readKV f).2, (readKV f).1)) < n := by
          unfold cursorMeasure at hfuel ⊢
          omega
        have e1 : (curs.map Prod.fst).set (min_element (curs.map Prod.snd)) (readKV f).2
            = (curs.set (min_element (curs.map Prod.snd)) ((readKV f).2, (readKV f).1)).map
                Prod.fst := by
          rw [List.map_set]
        have e2 : (curs.map Prod.snd).set (min_element (curs.map Prod.snd)) (readKV f).1
            = (curs.set (min_element (curs.map Prod.snd)) ((readKV f).2, (readKV f).1)).map
                Prod.snd := by
          rw [List.map_set]
        simp only [hk, ne_eq, not_false_eq_true, if_true]
        rw [e1, e2]
        split
        · exact ih _ _ _ _ hne' hfuel'
        · exact ih _ _ _ _ hne' hfuel'

theorem initial_measure_le (files : List (List Char)) :
    cursorMeasure (files.map (fun f =>
        ((readKV (IStream.open_ f)).2, (readKV (IStream.open_ f)).1)))
      ≤ (files.map List.length).sum := by
  induction files with
  | nil => simp [cursorMeasure]
  | cons f fs ih =>
    have : (readKV (IStream.open_ f)).2.rest.length
        + (if (readKV (IStream.open_ f)).1.key = [] then 0 else 1) ≤ f.length :=
      readKV_measure (IStream.open_ f)
    unfold cursorMeasure at ih ⊢
    simp only [List.map_cons, List.sum_cons]
    omega

/-! ## Cursors with an empty key -/

/-- While some cursor holds a non-empty key, `std::min_element` returns one that does. -/
theorem min_element_nonempty (kvs : List KeyValue) (h : ∃ x ∈ kvs, x.key ≠ []) :
    ∃ it, kvs[min_element kvs]? = some it ∧ it.key ≠ [] := by
  obtain ⟨x, hx, hxk⟩ := h
  obtain ⟨v, hv, _, hmin⟩ := min_element_spec kvs (List.ne_nil_of_mem hx)
  refine ⟨v, hv, ?_⟩
  intro hvk
  have h1 := hmin x hx
  have h3 : x.key.length ≠ 0 := fun h0 => hxk (List.length_eq_zero.1 h0)
  simp [key_less, h3, hvk] at h1

/-- The loop of `shuffle` stops at once when every cursor holds an empty key. -/
theorem shuffle_loop_stops (T : Int) (fuel : Nat) (ins : List IStream) (kvs : List KeyValue)
    (prev : List Char) (closed : List (List Char)) (out : List Char)
    (hne : kvs ≠ []) (hlen : ins.length = kvs.length) (hall : ∀ x ∈ kvs, x.key = []) :
    shuffle_loop T (fuel + 1) ins kvs prev closed out = .done (closed ++ [out]) := by
  obtain ⟨v, hv, hlt, _⟩ := min_element_spec kvs hne
  have hvk : v.key = [] := hall v (List.mem_iff_getElem?.2 ⟨_, hv⟩)
  have hf : ins[min_element kvs]? = some ins[min_element kvs] :=
    List.getElem?_eq_getElem (by omega)
  simp only [shuffle_loop, hv, hf]
  simp [hvk]

/-- The loop of `shuffle` writes a record and goes on when some cursor holds a non-empty
key. -/
theorem shuffle_loop_continues (T : Int) (fuel : Nat) (ins : List IStream)
    (kvs : List KeyValue) (prev : List Char) (closed : List (List Char)) (out : List Char)
    (hlen : ins.length = kvs.length) (hsome : ∃ x ∈ kvs, x.key ≠ []) :
    ∃ it f, kvs[min_element kvs]? = some it ∧ ins[min_element kvs]? = some f ∧ it.key ≠ [] ∧
      shuffle_loop T (fuel + 1) ins kvs prev closed out
        = if (out.length : Int) > T ∧ prev ≠ it.key then
            shuffle_loop T fuel (ins.set (min_element kvs) (readKV f).2)
              (kvs.set (min_element kvs) (readKV f).1) it.key (closed ++ [out]) (showLine it)
          else
            shuffle_loop T fuel (ins.set (min_element kvs) (readKV f).2)
              (kvs.set (min_element kvs) (readKV f).1) it.key closed (out ++ showLine it) := by
  obtain ⟨it, hit, hk⟩ := min_element_nonempty kvs hsome
  have hlt : min_element kvs < kvs.length := (List.getElem?_eq_some.1 hit).1
  have hf : ins[min_element kvs]? = some ins[min_element kvs] :=
    List.getElem?_eq_getElem (by omega)
  refine ⟨it, _, hit, hf, hk, ?_⟩
  simp only [shuffle_loop, hit, hf]
  simp [hk]

/-- Every record the loop of `shuffle` writes has a non-empty key. -/
theorem shuffle_loop_written (T : Int) (fuel : Nat) (ins : List IStream) (kvs : List KeyValue)
    (prev : List Char) (closedR : List (List KeyValue)) (outR : List KeyValue)
    (res : List (List Char))
    (hc : ∀ p ∈ closedR, ∀ r ∈ p, r.key ≠ []) (ho : ∀ r ∈ outR, r.key ≠ [])
    (h : shuffle_loop T fuel ins kvs prev (closedR.map encodeFile) (encodeFile outR)
      = .done res) :
    ∃ parts : List (List KeyValue), res = parts.map encodeFile ∧
      ∀ p ∈ parts, ∀ r ∈ p, r.key ≠ [] := by
  induction fuel generalizing ins kvs prev closedR outR with
  | zero => simp [shuffle_loop] at h
  | succ n ih =>
    simp only [shuffle_loop] at h
    split at h
    · rename_i it f hit hf
      split at h
      · rename_i hk
        split at h
        · have e : closedR.map encodeFile ++ [encodeFile outR]
              = (closedR ++ [outR]).map encodeFile := by simp
          rw [e, ← encodeFile_singleton] at h
          refine ih _ _ _ (closedR ++ [outR]) [it] ?_ ?_ h
          · intro p hp r hr
            rcases List.mem_append.1 hp with h1 | h1
            · exact hc p h1 r hr
            · simp only [List.mem_singleton] at h1
              subst h1
              exact ho r hr
          · intro r hr
            simp only [List.mem_singleton] at hr
            rw [hr]; exact hk
        · rw [← encodeFile_singleton it, ← encodeFile_append] at h
          refine ih _ _ _ closedR (outR ++ [it]) hc ?_ h
          intro r hr
          rcases List.mem_append.1 hr with h1 | h1
          · exact ho r h1
          · simp only [List.mem_singleton] at h1
            rw [h1]; exact hk
      · simp only [Run.done.injEq] at h
        subst h
        refine ⟨closedR ++ [outR], by simp, ?_⟩
        intro p hp r hr
        rcases List.mem_append.1 hp with h1 | h1
        · exact hc p h1 r hr
        · simp only [List.mem_singleton] at h1
          subst h1
          exact ho r hr
    · simp at h

theorem shuffle_written (fuel R : Nat) (files : List (List Char)) (res : List (List Char))
    (h : shuffle fuel R files = .done res) :
    ∃ parts : List (List KeyValue), res = parts.map encodeFile ∧
      ∀ p ∈ parts, ∀ r ∈ p, r.key ≠ [] := by
  unfold shuffle at h
  split at h
  · simp at h
  · exact shuffle_loop_written _ fuel _ _ [] [] [] res (by simp) (by simp) h

/-! ## The sizes of the partition files -/

theorem cutParts_ne_nil (T : Int) (M : List KeyValue) (prev : List Char)
    (closed : List (List KeyValue)) (out : List KeyValue) :
    cutParts T M prev closed out ≠ [] := by
  induction M generalizing prev closed out with
  | nil => simp [cutParts]
  | cons r rs ih =>
    simp only [cutParts]
    split
    · exact ih _ _ _
    · exact ih _ _ _

/-- Every partition file but the last is larger than the target size. -/
theorem cutParts_closed_large (T : Int) (M : List KeyValue) (prev : List Char)
    (out : List KeyValue) :
    ∀ p ∈ (cutParts T M prev [] out).dropLast, T < ((encodeFile p).length : Int) := by
  induction M generalizing prev out with
  | nil => simp [cutParts]
  | cons r rs ih =>
    simp only [cutParts]
    split
    · rename_i hcond
      rw [cutParts_closed]
      simp only [List.nil_append]
      rw [List.dropLast_append_of_ne_nil _ (cutParts_ne_nil T rs r.key [] [r])]
      intro p hp
      rcases List.mem_append.1 hp with h1 | h1
      · simp only [List.mem_singleton] at h1
        rw [h1]; exact hcond.1
      · exact ih r.key [r] p h1
    · exact ih r.key (out ++ [r])

theorem balancedAt_snoc (T : Int) (out : List KeyValue) (r : KeyValue)
    (hb : balancedAt T out)
    (hlast : ∀ a x, out = a ++ [x] → x.key ≠ r.key → ((encodeFile out).length : Int) ≤ T) :
    balancedAt T (out ++ [r]) := by
  intro a x y b hp hxy
  rcases List.eq_nil_or_concat b with hbn | ⟨b', z, hbz⟩
  · subst hbn
    have e : a ++ [x, y] = (a ++ [x]) ++ [y] := by simp
    rw [e] at hp
    obtain ⟨h1, h2⟩ := List.append_inj' hp rfl
    simp only [List.cons.injEq, and_true] at h2
    rw [← h1]
    exact hlast a x h1 (by rw [h2]; exact hxy)
  · rw [List.concat_eq_append] at hbz
    subst hbz
    have e : a ++ x :: y :: (b' ++ [z]) = (a ++ x :: y :: b') ++ [z] := by simp
    rw [e] at hp
    obtain ⟨h1, _⟩ := List.append_inj' hp rfl
    exact hb a x y b' h1 hxy

/-- Inside every partition file the bytes before a change of key do not exceed the target. -/
theorem cutParts_balanced (T : Int) (M : List KeyValue) (prev : List Char)
    (out : List KeyValue) (hb : balancedAt T out)
    (hprev : ∀ a x, out = a ++ [x] → x.key = prev) :
    ∀ p ∈ cutParts T M prev [] out, balancedAt T p := by
  induction M generalizing prev out with
  | nil =>
    intro p hp
    simp only [cutParts, List.nil_append, List.mem_singleton] at hp
    rw [hp]; exact hb
  | cons r rs ih =>
    have hlast1 : ∀ a x, [r] = a ++ [x] → x.key = r.key := by
      intro a x h
      have h' : [] ++ [r] = a ++ [x] := by simpa using h
      obtain ⟨_, h2⟩ := List.append_inj' h' rfl
      simp only [List.cons.injEq, and_true] at h2
      rw [← h2]
    simp only [cutParts]
    split
    · rw [cutParts_closed]
      simp only [List.nil_append]
      intro p hp
      rcases List.mem_append.1 hp with h1 | h1
      · simp only [List.mem_singleton] at h1
        rw [h1]; exact hb
      · refine ih r.key [r] ?_ hlast1 p h1
        intro a x y b hp' _
        have := congrArg List.length hp'
        simp at this
        omega
    · rename_i hcond
      refine ih r.key (out ++ [r]) ?_ ?_
      · apply balancedAt_snoc T out r hb
        intro a x hax hxr
        have hpx : x.key = prev := hprev a x hax
        have : ¬ ((encodeFile out).length : Int) > T := by
          intro hgt
          exact hcond ⟨hgt, by rw [← hpx]; exact hxr⟩
        omega
      · intro a x h
        obtain ⟨_, h2⟩ := List.append_inj' h rfl
        simp only [List.cons.injEq, and_true] at h2
        rw [← h2]

theorem dropWhile_head_false {α : Type} (p : α → Bool) (l : List α) (z : α) (zs : List α)
    (h : l.dropWhile p = z :: zs) : p z = false := by
  induction l with
  | nil => simp at h
  | cons x xs ih =>
    simp only [List.dropWhile_cons] at h
    split at h
    · exact ih h
    · rename_i hx
      simp only [List.cons.injEq] at h
      rw [← h.1]
      simpa using hx

/-- The bytes before the last key group of a partition file do not exceed the target. -/
theorem balancedAt_beforeLastGroup (T : Int) (p : List KeyValue) (hT : 0 ≤ T)
    (hb : balancedAt T p) : ((encodeFile (beforeLastGroup p)).length : Int) ≤ T := by
  unfold beforeLastGroup
  cases hrev : p.reverse with
  | nil => simpa [encodeFile] using hT
  | cons last before =>
    simp only []
    cases hdw : before.dropWhile (fun r => decide (r.key = last.key)) with
    | nil => simpa [encodeFile] using hT
    | cons z zs =>
      have hz : ¬ z.key = last.key := by
        simpa using dropWhile_head_false _ before z zs hdw
      have hsplit := List.takeWhile_append_dropWhile (fun r => decide (r.key = last.key)) before
      rw [hdw] at hsplit
      have hmem : ∀ y ∈ before.takeWhile (fun r => decide (r.key = last.key)),
          y.key = last.key := by
        intro y hy
        simpa using List.mem_takeWhile_imp hy
      generalize before.takeWhile (fun r => decide (r.key = last.key)) = tw at hsplit hmem
      have hp : p = zs.reverse ++ z :: (tw.reverse ++ [last]) := by
        have := congrArg List.reverse hrev
        rw [List.reverse_reverse] at this
        rw [this, ← hsplit]
        simp
      have hgrp : ∀ y ∈ tw.reverse ++ [last], y.key = last.key := by
        intro y hy
        rcases List.mem_append.1 hy with h1 | h1
        · exact hmem y (List.mem_reverse.1 h1)
        · simp only [List.mem_singleton] at h1
          rw [h1]
      cases hg : tw.reverse ++ [last] with
      | nil => simp at hg
      | cons y b =>
        rw [hg] at hp hgrp
        have hy : y.key = last.key := hgrp y (List.mem_cons_self _ _)
        have := hb zs.reverse z y b hp (by rw [hy]; exact hz)
        simpa using this

/-! ## Order inside the partition files -/

theorem keyStrict_sorted (l : List KeyValue) (h : keyStrict l) : keySorted l :=
  List.Pairwise.imp (fun hab => strLt_asymm _ _ hab) h

theorem keySorted_strict_of_nodup (l : List KeyValue) (hs : keySorted l)
    (hn : (l.map KeyValue.key).Nodup) : keyStrict l := by
  have h1 : l.Pairwise (fun a b => a.key ≠ b.key) := by
    unfold List.Nodup at hn
    exact List.pairwise_map.1 hn
  exact (List.Pairwise.and hs h1).imp
    (fun h => strLt_total _ _ h.1 (fun e => h.2 e.symm))

/-! ## The claims on `split_file` and `combiner`, continued -/

/-- Whenever `split_file` returns on a non-empty file it returns `mappers_count = n` blocks,
and block `i` ends at the offset just past the first `'\n'` located at an offset
`>= floor(S / n) * (i + 1)`, provided there is such a `'\n'`. -/
theorem split_file_block_end (fuel : Nat) (file : List Char) (n : Nat) (blocks : List Block)
    (i : Nat) (b : Block) (h : split_file fuel file n = .done blocks)
    (hb : blocks[i]? = some b) (hnl : '\n' ∈ file.drop (file.length / n * (i + 1))) :
    (0 < file.length → blocks.length = n) ∧
      b.to_ = past_newline_from file (file.length / n * (i + 1)) := by
  unfold split_file at h
  split at h
  · constructor
    · intro _
      simpa using split_loop_length _ _ _ _ _ _ _ _ _ h
    · exact (split_loop_ends fuel n file n 0 ⟨0, 0⟩ ⟨file, 0, false, false⟩ [] blocks rfl rfl h
        i b hb).2 (by omega) hnl
  · simp only [Run.done.injEq] at h
    subst h
    simp at hb

/-- C12 (the code at failing inputs). On the file `"abcd"` with 2 mappers the first scan
reaches the end of the file, the stream stays failed, and the second scan never ends:
`split_file` does not return for any iteration budget.  On the file `"ab\ncd"` with 2
mappers (last line without terminator) it returns, and the last block has
`to = 2^64 - 1`, far above the file size 5, because `tellg()` returns `-1` after the end of
the file was hit. -/
theorem split_file_scan_at_eof (fuel k : Nat) :
    split_file fuel ['a', 'b', 'c', 'd'] 2 = .nofuel ∧
      split_file (10 + k) ['a', 'b', '\n', 'c', 'd'] 2
        = .done [⟨0, 3⟩, ⟨3, 18446744073709551615⟩] := by
  constructor
  · by_cases hf : fuel < 3
    · interval_cases fuel <;> decide
    · obtain ⟨j, rfl⟩ : ∃ j, fuel = 3 + j := ⟨fuel - 3, by omega⟩
      have h1 : scan_line (3 + j) ⟨['a', 'b', 'c', 'd'], 2, false, false⟩
          = .done ⟨['a', 'b', 'c', 'd'], 4, true, true⟩ :=
        scan_line_mono 3 j _ _ (by decide)
      simp only [split_file, split_loop, List.length_cons, List.length_nil, Nat.zero_add,
        Nat.reduceAdd, gt_iff_lt, Nat.ofNat_pos, if_true, IfStream.seekg, Bool.false_eq_true,
        if_false, Nat.reduceDiv, Nat.reduceMul, h1, IfStream.tellg, IfStream.good,
        Bool.not_true, Bool.and_self, scan_line_failed]
  · exact split_file_mono 10 k _ 2 _ (by decide)

/-- C13 (counterexample). On the sorted map file `"a 1\na -5\n"` `combiner` writes
`"a 2\n"`: the key `a` is kept although the values of its records sum to `-4`. -/
theorem combiner_keeps_nonpositive_sum_counterexample :
    combiner 10 (encodeFile [⟨['a'], 1⟩, ⟨['a'], -5⟩]) = .done (encodeFile [⟨['a'], 2⟩]) ∧
      ¬ (0 < (([⟨['a'], 1⟩, ⟨['a'], -5⟩] : List KeyValue).map KeyValue.value).sum) := by
  decide

/-- C13 (amended). For every map file of valid records that has a record with a positive
value (and whose values stay in the range of `int` when the number of records is added),
`combiner` returns, and a key is present in its output exactly when one of the input records
with that key has a positive value. -/
theorem combiner_keeps_keys_with_positive_record (fuel : Nat) (recs : List KeyValue)
    (hv : ∀ r ∈ recs, validRec r) (hpos : ∃ r ∈ recs, r.value > 0)
    (hrange : ∀ x ∈ recs, x.value + recs.length ≤ INT_MAX)
    (hfuel : recs.length + 2 ≤ fuel) :
    ∃ out : List KeyValue, combiner fuel (encodeFile recs) = .done (encodeFile out) ∧
      ∀ k, k ∈ out.map KeyValue.key ↔ ∃ r ∈ recs, r.key = k ∧ r.value > 0 := by
  obtain ⟨pre, r, post, hsplit, hpre, hr⟩ := first_positive recs hpos
  subst hsplit
  have hrange' : ∀ x ∈ r :: post, x.value + post.length ≤ INT_MAX := by
    intro x hx
    have := hrange x (by simp only [List.mem_append]; exact Or.inr hx)
    simp only [List.length_append, List.length_cons] at this
    push_cast at this
    omega
  refine ⟨combineRecs r post, combiner_eq_skip fuel pre r post hv hpre hr hrange' hfuel, ?_⟩
  intro k
  rw [combineRecs_keys_positive]
  constructor
  · rintro (h | ⟨x, hx, hxk, hxp⟩)
    · exact ⟨r, by simp, h.symm, hr⟩
    · exact ⟨x, by simp [hx], hxk, hxp⟩
  · rintro ⟨x, hx, hxk, hxp⟩
    rcases List.mem_append.1 hx with h1 | h1
    · have := hpre x h1
      omega
    · rcases List.mem_cons.1 h1 with h2 | h2
      · exact Or.inl (by rw [← hxk, h2])
      · exact Or.inr ⟨x, h2, hxk, hxp⟩

theorem combiner_keeps_keys_with_positive_record_witness :
    ∃ out : List KeyValue,
      combiner 10 (encodeFile [⟨['a'], 0⟩, ⟨['a'], 2⟩, ⟨['b'], -1⟩, ⟨['c'], 1⟩])
        = .done (encodeFile out) ∧
      ∀ k, k ∈ out.map KeyValue.key ↔
        ∃ r ∈ ([⟨['a'], 0⟩, ⟨['a'], 2⟩, ⟨['b'], -1⟩, ⟨['c'], 1⟩] : List KeyValue),
          r.key = k ∧ r.value > 0 :=
  combiner_keeps_keys_with_positive_record 10
    [⟨['a'], 0⟩, ⟨['a'], 2⟩, ⟨['b'], -1⟩, ⟨['c'], 1⟩]
    (by decide) (by decide) (by decide) (by decide)

/-- C14 (the code at a failing input). On the 2-byte file `"a\n"` with `mappers_count = 1`
`split_file` returns one block with `from = 0` and `to = 2^64 - 1`, not `to = 2`: the only
scan starts at the end of the file, hits it, and `tellg()` returns `-1` (for every iteration
budget from 10 on). -/
theorem split_file_single_block_end (k : Nat) :
    split_file (10 + k) ['a', '\n'] 1 = .done [⟨0, 18446744073709551615⟩] :=
  split_file_mono 10 k _ 1 _ (by decide)

/-- C18 (the code at failing inputs). On an empty map file, and on the map file
`"a 0\nb -1\n"` whose records all have a value that is not positive, `combiner` takes the
branch `kvs.back().value++` while `kvs` is empty: undefined behaviour (for every iteration
budget from 10 on). -/
theorem combiner_back_of_empty_list (k : Nat) :
    combiner (10 + k) [] = .undefined ∧
      combiner (10 + k) ['a', ' ', '0', '\n', 'b', ' ', '-', '1', '\n'] = .undefined :=
  ⟨(combiner_mono 10 k _ (by decide)).trans (by decide),
    (combiner_mono 10 k _ (by decide)).trans (by decide)⟩

/-! ## The claims on `shuffle`, continued -/

/-- C15. At a merge step over the records `kvs` held by the cursors, `std::min_element`
selects a cursor such that, if any cursor holds a non-empty key, the selected key is non-empty
and no non-empty key is smaller, and every cursor with a lower index that holds a non-empty key
holds a strictly greater one.  Consequently, for map files of valid records sorted by key,
the records of each key appear in the output of `shuffle` in the order they have in the map
files taken in mapper-index order (the merge is stable). -/
theorem shuffle_merge_stable (kvs : List KeyValue) (fuel R : Nat)
    (files : List (List KeyValue)) (hkvs : kvs ≠ [])
    (hR : 1 ≤ R) (hne : files ≠ []) (hv : ∀ f ∈ files, ∀ r ∈ f, validRec r)
    (hs : ∀ f ∈ files, keySorted f) (hfuel : totalLen files < fuel) :
    (∃ it, kvs[min_element kvs]? = some it ∧
      (∀ x ∈ kvs, x.key ≠ [] → it.key ≠ [] ∧ strLt x.key it.key = false) ∧
      (∀ j x, j < min_element kvs → kvs[j]? = some x → x.key ≠ [] →
        strLt it.key x.key = true)) ∧
    (∃ parts : List (List KeyValue),
      shuffle fuel R (files.map encodeFile) = .done (parts.map encodeFile) ∧
      ∀ k, parts.flatten.filter (fun r => decide (r.key = k))
        = files.flatten.filter (fun r => decide (r.key = k))) := by
  have hk : ∀ c ∈ files, ∀ r ∈ c, r.key ≠ [] := fun c hc r hr => valid_key_ne r (hv c hc r hr)
  constructor
  · obtain ⟨it, hit, _, hmin⟩ := min_element_spec kvs hkvs
    refine ⟨it, hit, ?_, ?_⟩
    · intro x hx hxk
      have h1 := hmin x hx
      have h3 : x.key.length ≠ 0 := fun h0 => hxk (List.length_eq_zero.1 h0)
      by_cases hik : it.key = []
      · simp [key_less, h3, hik] at h1
      · have h4 : it.key.length ≠ 0 := fun h0 => hik (List.length_eq_zero.1 h0)
        exact ⟨hik, by simpa [key_less, h3, h4] using h1⟩
    · intro j x hj hx hxk
      have h1 := min_element_first kvs it hit j x hj hx
      have h3 : x.key.length ≠ 0 := fun h0 => hxk (List.length_eq_zero.1 h0)
      by_cases hik : it.key = []
      · simp [key_less, hik] at h1
      · have h4 : it.key.length ≠ 0 := fun h0 => hik (List.length_eq_zero.1 h0)
        simpa [key_less, h3, h4] using h1
  · refine ⟨_, shuffle_eq fuel R files hR hne hv hfuel, ?_⟩
    intro k
    rw [cutParts_flatten]
    exact mergeSeq_filter fuel files hk hs hfuel k

theorem shuffle_merge_stable_witness :
    (∃ it, ([⟨['b'], 1⟩, ⟨['a'], 1⟩, ⟨[], 0⟩, ⟨['a'], 2⟩] : List KeyValue)[
        min_element [⟨['b'], 1⟩, ⟨['a'], 1⟩, ⟨[], 0⟩, ⟨['a'], 2⟩]]? = some it ∧
      (∀ x ∈ ([⟨['b'], 1⟩, ⟨['a'], 1⟩, ⟨[], 0⟩, ⟨['a'], 2⟩] : List KeyValue),
        x.key ≠ [] → it.key ≠ [] ∧ strLt x.key it.key = false) ∧
      (∀ j x, j < min_element [⟨['b'], 1⟩, ⟨['a'], 1⟩, ⟨[], 0⟩, ⟨['a'], 2⟩] →
        ([⟨['b'], 1⟩, ⟨['a'], 1⟩, ⟨[], 0⟩, ⟨['a'], 2⟩] : List KeyValue)[j]? = some x →
        x.key ≠ [] → strLt it.key x.key = true)) ∧
    (∃ parts : List (List KeyValue),
      shuffle 10 2 ([[⟨['a'], 1⟩, ⟨['c'], 1⟩], [⟨['a'], 2⟩, ⟨['c'], 5⟩]].map encodeFile)
        = .done (parts.map encodeFile) ∧
      ∀ k, parts.flatten.filter (fun r => decide (r.key = k))
        = ([[⟨['a'], 1⟩, ⟨['c'], 1⟩], [⟨['a'], 2⟩, ⟨['c'], 5⟩]] : List (List KeyValue)).flatten.filter
            (fun r => decide (r.key = k))) :=
  shuffle_merge_stable [⟨['b'], 1⟩, ⟨['a'], 1⟩, ⟨[], 0⟩, ⟨['a'], 2⟩] 10 2
    [[⟨['a'], 1⟩, ⟨['c'], 1⟩], [⟨['a'], 2⟩, ⟨['c'], 5⟩]]
    (by decide) (by decide) (by decide) (by decide) (by decide) (by decide)

/-- C16. For every non-empty list of map files with arbitrary contents and
`reducers_count >= 1`, the merge loop of `shuffle` terminates: with an iteration budget above
the total number of bytes of the map files `shuffle` returns (each iteration that does not
stop the loop consumes the record held by one cursor). -/
theorem shuffle_terminates (fuel R : Nat) (files : List (List Char))
    (hR : 1 ≤ R) (hne : files ≠ []) (hfuel : (files.map List.length).sum < fuel) :
    ∃ out : List (List Char), shuffle fuel R files = .done out := by
  have h1 : files.map (fun f => (readKV (IStream.open_ f)).2)
      = (files.map (fun f =>
          ((readKV (IStream.open_ f)).2, (readKV (IStream.open_ f)).1))).map Prod.fst := by
    simp [List.map_map]
  have h2 : files.map (fun f => (readKV (IStream.open_ f)).1)
      = (files.map (fun f =>
          ((readKV (IStream.open_ f)).2, (readKV (IStream.open_ f)).1))).map Prod.snd := by
    simp [List.map_map]
  unfold shuffle
  rw [if_neg (by omega), h1, h2]
  apply shuffle_loop_terminates
  · simpa using hne
  · have := initial_measure_le files
    omega

theorem shuffle_terminates_witness :
    ∃ out : List (List Char),
      shuffle 20 2 [['a', ' ', 'x', '\n', 'b', ' ', '1', '\n'], ['z', 'z'], []] = .done out :=
  shuffle_terminates 20 2 [['a', ' ', 'x', '\n', 'b', ' ', '1', '\n'], ['z', 'z'], []]
    (by decide) (by decide) (by decide)

/-- C17. In `shuffle` a cursor holding an empty key is treated as exhausted.  At a merge step
with one stream per held record: while some cursor holds a non-empty key the selected cursor
holds a non-empty key; the loop stops at this step when every cursor holds an empty key, and
otherwise writes the selected record and goes on.  And every record that a run of `shuffle`
writes to a partition file has a non-empty key. -/
theorem shuffle_empty_key_is_exhausted (T : Int) (fuel : Nat) (ins : List IStream)
    (kvs : List KeyValue) (prev : List Char) (closed : List (List Char)) (out : List Char)
    (fuelS R : Nat) (files res : List (List Char))
    (hne : kvs ≠ []) (hlen : ins.length = kvs.length)
    (hrun : shuffle fuelS R files = .done res) :
    ((∃ x ∈ kvs, x.key ≠ []) → ∃ it, kvs[min_element kvs]? = some it ∧ it.key ≠ []) ∧
    ((∀ x ∈ kvs, x.key = []) →
      shuffle_loop T (fuel + 1) ins kvs prev closed out = .done (closed ++ [out])) ∧
    ((∃ x ∈ kvs, x.key ≠ []) →
      ∃ it f, kvs[min_element kvs]? = some it ∧ ins[min_element kvs]? = some f ∧
        it.key ≠ [] ∧
        shuffle_loop T (fuel + 1) ins kvs prev closed out
          = if (out.length : Int) > T ∧ prev ≠ it.key then
              shuffle_loop T fuel (ins.set (min_element kvs) (readKV f).2)
                (kvs.set (min_element kvs) (readKV f).1) it.key (closed ++ [out])
                (showLine it)
            else
              shuffle_loop T fuel (ins.set (min_element kvs) (readKV f).2)
                (kvs.set (min_element kvs) (readKV f).1) it.key closed
                (out ++ showLine it)) ∧
    (∃ parts : List (List KeyValue), res = parts.map encodeFile ∧
      ∀ p ∈ parts, ∀ r ∈ p, r.key ≠ []) :=
  ⟨min_element_nonempty kvs,
    shuffle_loop_stops T fuel ins kvs prev closed out hne hlen,
    shuffle_loop_continues T fuel ins kvs prev closed out hlen,
    shuffle_written fuelS R files res hrun⟩

theorem shuffle_empty_key_is_exhausted_witness :
    shuffle 20 1 [['a', ' ', 'x', '\n', 'b', ' ', '1', '\n'], []]
        = .done [['a', ' ', '0', '\n']] ∧
      shuffle_loop 5 (0 + 1) [⟨[], true, true⟩, ⟨[], true, true⟩] [⟨[], 0⟩, ⟨[], 0⟩] ['a']
          [] ['a', ' ', '0', '\n']
        = .done ([] ++ [['a', ' ', '0', '\n']]) ∧
      ∃ parts : List (List KeyValue), [['a', ' ', '0', '\n']] = parts.map encodeFile ∧
        ∀ p ∈ parts, ∀ r ∈ p, r.key ≠ [] :=
  ⟨by decide,
    (shuffle_empty_key_is_exhausted 5 0 [⟨[], true, true⟩, ⟨[], true, true⟩]
      [⟨[], 0⟩, ⟨[], 0⟩] ['a'] [] ['a', ' ', '0', '\n'] 20 1
      [['a', ' ', 'x', '\n', 'b', ' ', '1', '\n'], []] [['a', ' ', '0', '\n']]
      (by decide) (by decide) (by decide)).2.1 (by decide),
    (shuffle_empty_key_is_exhausted 5 0 [⟨[], true, true⟩, ⟨[], true, true⟩]
      [⟨[], 0⟩, ⟨[], 0⟩] ['a'] [] ['a', ' ', '0', '\n'] 20 1
      [['a', ' ', 'x', '\n', 'b', ' ', '1', '\n'], []] [['a', ' ', '0', '\n']]
      (by decide) (by decide) (by decide)).2.2.2⟩

/-- Below the range of `int`: for map files that are the exact text of valid records, at
least one file, `reducers_count = R >= 1` and a target size `total_size / R` below `2^31`,
the partition files `shuffle` writes hold exactly the records of the map files, every
partition file other than the last is strictly larger than the target size, and in every
partition file the bytes written before its last key group do not exceed the target size. -/
theorem shuffle_size_balance (fuel R : Nat) (files : List (List KeyValue))
    (hR : 1 ≤ R) (hne : files ≠ []) (hv : ∀ f ∈ files, ∀ r ∈ f, validRec r)
    (hsize : ((files.map encodeFile).map List.length).sum / R < 2147483648)
    (hfuel : totalLen files < fuel) :
    ∃ parts : List (List KeyValue),
      shuffle fuel R (files.map encodeFile) = .done (parts.map encodeFile) ∧
      parts.flatten.Perm files.flatten ∧
      (∀ p ∈ parts.dropLast,
        ((files.map encodeFile).map List.length).sum / R < (encodeFile p).length) ∧
      (∀ p ∈ parts, (encodeFile (beforeLastGroup p)).length
        ≤ ((files.map encodeFile).map List.length).sum / R) := by
  have hk : ∀ c ∈ files, ∀ r ∈ c, r.key ≠ [] := fun c hc r hr => valid_key_ne r (hv c hc r hr)
  refine ⟨_, shuffle_eq fuel R files hR hne hv hfuel, ?_, ?_, ?_⟩
  · rw [cutParts_flatten]
    exact mergeSeq_perm fuel files hk hfuel
  · rw [toInt32_small _ hsize]
    intro p hp
    have := cutParts_closed_large _ _ _ _ p hp
    exact_mod_cast this
  · rw [toInt32_small _ hsize]
    intro p hp
    have hb : balancedAt ((((files.map encodeFile).map List.length).sum / R : Nat) : Int) p := by
      refine cutParts_balanced _ _ [] [] ?_ ?_ p hp
      · intro a x y b h _
        have := congrArg List.length h
        simp at this
        omega
      · intro a x h
        have := congrArg List.length h
        simp at this
    have := balancedAt_beforeLastGroup _ p (by positivity) hb
    exact_mod_cast this

/-- C20 (counterexample). Two post-combine map files that both hold the key `a` once: the
single partition file `shuffle` writes is `"a 1\na 1\n"`, two adjacent records with the same
key. -/
theorem shuffle_equal_keys_adjacent_counterexample :
    shuffle 10 1 [encodeFile [⟨['a'], 1⟩], encodeFile [⟨['a'], 1⟩]]
        = .done [encodeFile [⟨['a'], 1⟩, ⟨['a'], 1⟩]] ∧
      keyStrict [⟨['a'], 1⟩] ∧ ¬ keyStrict [⟨['a'], 1⟩, ⟨['a'], 1⟩] := by
  decide

/-- C20 (amended). For every list of post-combine map files (valid records, each file with
strictly increasing keys), the partition files written by `shuffle` hold exactly the records
of the map files, the keys within each partition file are in ascending order (no record has a
smaller key than a record before it), and they are strictly increasing when no key occurs in
two different map files. -/
theorem shuffle_partitions_ascending (fuel R : Nat) (files : List (List KeyValue))
    (hR : 1 ≤ R) (hne : files ≠ []) (hv : ∀ f ∈ files, ∀ r ∈ f, validRec r)
    (hs : ∀ f ∈ files, keyStrict f) (hfuel : totalLen files < fuel) :
    ∃ parts : List (List KeyValue),
      shuffle fuel R (files.map encodeFile) = .done (parts.map encodeFile) ∧
      parts.flatten.Perm files.flatten ∧
      (∀ p ∈ parts, keySorted p) ∧
      ((files.flatten.map KeyValue.key).Nodup → ∀ p ∈ parts, keyStrict p) := by
  have hk : ∀ c ∈ files, ∀ r ∈ c, r.key ≠ [] := fun c hc r hr => valid_key_ne r (hv c hc r hr)
  have hsorted : keySorted (mergeSeq fuel files) :=
    mergeSeq_sorted fuel files hk (fun f hf => keyStrict_sorted f (hs f hf))
  have hperm := mergeSeq_perm fuel files hk hfuel
  refine ⟨_, shuffle_eq fuel R files hR hne hv hfuel, ?_, ?_, ?_⟩
  · rw [cutParts_flatten]
    exact hperm
  · intro p hp
    have := hsorted
    rw [← List.nil_append (mergeSeq fuel files), ← cutParts_flatten
      (toInt32 (((files.map encodeFile).map List.length).sum / R)) _ [] []] at this
    exact (List.pairwise_flatten.1 this).1 p hp
  · intro hnd p hp
    have hnd' : ((mergeSeq fuel files).map KeyValue.key).Nodup :=
      (List.Perm.nodup_iff (hperm.map KeyValue.key)).2 hnd
    have := keySorted_strict_of_nodup _ hsorted hnd'
    rw [← List.nil_append (mergeSeq fuel files), ← cutParts_flatten
      (toInt32 (((files.map encodeFile).map List.length).sum / R)) _ [] []] at this
    exact (List.pairwise_flatten.1 this).1 p hp

theorem shuffle_partitions_ascending_witness :
    ∃ parts : List (List KeyValue),
      shuffle 10 2 ([[⟨['a'], 1⟩, ⟨['c'], 1⟩], [⟨['a'], 2⟩, ⟨['d'], 5⟩]].map encodeFile)
        = .done (parts.map encodeFile) ∧
      parts.flatten.Perm ([[⟨['a'], 1⟩, ⟨['c'], 1⟩], [⟨['a'], 2⟩, ⟨['d'], 5⟩]] :
          List (List KeyValue)).flatten ∧
      (∀ p ∈ parts, keySorted p) ∧
      ((([[⟨['a'], 1⟩, ⟨['c'], 1⟩], [⟨['a'], 2⟩, ⟨['d'], 5⟩]] :
          List (List KeyValue)).flatten.map KeyValue.key).Nodup →
        ∀ p ∈ parts, keyStrict p) :=
  shuffle_partitions_ascending 10 2 [[⟨['a'], 1⟩, ⟨['c'], 1⟩], [⟨['a'], 2⟩, ⟨['d'], 5⟩]]
    (by decide) (by decide) (by decide) (by decide) (by decide)

/-! ## When `split_file` returns -/

/-- On a good stream a scan with an iteration budget above the file size ends. -/
theorem scan_line_total (fuel : Nat) (d : List Char) (p : Nat)
    (h1 : d.length + 1 ≤ fuel + p) (h2 : 1 ≤ fuel) :
    ∃ s, scan_line fuel ⟨d, p, false, false⟩ = .done s := by
  induction fuel generalizing p with
  | zero => omega
  | succ n ih =>
    simp only [scan_line, IfStream.get, IfStream.good]
    cases hc : d[p]? with
    | none =>
      refine ⟨⟨d, p, true, true⟩, ?_⟩
      simp
    | some c =>
      obtain ⟨hp, _⟩ := List.getElem?_eq_some.1 hc
      by_cases hcn : c = '\n'
      · subst hcn
        refine ⟨⟨d, p + 1, false, false⟩, ?_⟩
        simp
      · have hne : (some c != some '\n') = true := by simpa using hcn
        simp only [Bool.not_false, Bool.and_self, if_true, hne]
        exact ih (p + 1) (by omega) (by omega)

/-- The loop of `split_file` returns when every scan but the last has a line terminator
ahead. -/
theorem split_loop_total (fuel mc : Nat) (file : List Char) (k n : Nat) (block : Block)
    (in_ : IfStream) (blocks : List Block)
    (hd : in_.data = file) (hf : in_.failbit = false) (hfuel : file.length + 1 ≤ fuel)
    (hnl : ∀ i, n ≤ i → i + 1 < n + k → '\n' ∈ file.drop (file.length / mc * (i + 1))) :
    ∃ res, split_loop fuel file.length mc k n block in_ blocks = .done res := by
  induction k generalizing n block in_ blocks with
  | zero => exact ⟨blocks, rfl⟩
  | succ k ih =>
    obtain ⟨d, p, e, f⟩ := in_
    simp only [] at hd hf
    subst hd
    subst hf
    simp only [split_loop, IfStream.seekg, Bool.false_eq_true, if_false]
    obtain ⟨s, hs⟩ := scan_line_total fuel d (d.length / mc * (n + 1)) (by omega) (by omega)
    rw [hs]
    simp only []
    cases k with
    | zero => exact ⟨_, rfl⟩
    | succ k' =>
      have hnl0 : '\n' ∈ d.drop (d.length / mc * (n + 1)) := hnl n (by omega) (by omega)
      have hsv := scan_line_newline fuel d _ s hs hnl0
      subst hsv
      refine ih (n + 1) _ _ _ ?_ ?_ ?_
      · simp [IfStream.tellg, IfStream.good]
      · simp [IfStream.tellg, IfStream.good]
      · intro i hi1 hi2
        exact hnl i (by omega) (by omega)

/-- A scan without a line terminator ahead leaves the stream failed. -/
theorem scan_line_no_newline (fuel : Nat) (d : List Char) (p : Nat) (s : IfStream)
    (h : scan_line fuel ⟨d, p, false, false⟩ = .done s) (hnl : '\n' ∉ d.drop p) :
    s.failbit = true := by
  induction fuel generalizing p with
  | zero => simp [scan_line] at h
  | succ n ih =>
    simp only [scan_line, IfStream.get, IfStream.good] at h
    cases hc : d[p]? with
    | none =>
      simp only [hc] at h
      simp only [Bool.not_false, Bool.and_self, if_true, Bool.not_true, Bool.and_false,
        Bool.false_eq_true, if_false, Run.done.injEq] at h
      subst h
      rfl
    | some c =>
      obtain ⟨hp, hpc⟩ := List.getElem?_eq_some.1 hc
      have hdrop : d.drop p = c :: d.drop (p + 1) := by
        rw [List.drop_eq_getElem_cons hp, hpc]
      rw [hdrop] at hnl
      have hcn : c ≠ '\n' := fun e => hnl (by rw [e]; exact List.mem_cons_self _ _)
      have hnl' : '\n' ∉ d.drop (p + 1) := fun e => hnl (List.mem_cons_of_mem _ e)
      simp only [hc] at h
      have hne : (some c != some '\n') = true := by simpa using hcn
      simp only [Bool.not_false, Bool.and_self, if_true, hne] at h
      exact ih (p + 1) h hnl'

theorem scan_line_not_undefined (fuel : Nat) (s : IfStream) :
    scan_line fuel s ≠ .undefined := by
  induction fuel generalizing s with
  | zero => simp [scan_line]
  | succ n ih =>
    simp only [scan_line]
    split
    · exact ih _
    · simp

/-- When the first of at least two scans has no line terminator ahead, `split_file` does not
return, whatever the iteration budget. -/
theorem split_file_no_return (fuel : Nat) (file : List Char) (n : Nat)
    (hS : 0 < file.length) (hn : 2 ≤ n) (hnl : '\n' ∉ file.drop (file.length / n * 1)) :
    split_file fuel file n = .nofuel := by
  obtain ⟨m, rfl⟩ : ∃ m, n = m + 2 := ⟨n - 2, by omega⟩
  unfold split_file
  rw [if_pos hS]
  simp only [split_loop, IfStream.seekg, Bool.false_eq_true, if_false, Nat.zero_add]
  cases hs : scan_line fuel ⟨file, file.length / (m + 2) * 1, false, false⟩ with
  | undefined => exact absurd hs (scan_line_not_undefined _ _)
  | nofuel => rfl
  | done s =>
    have hf := scan_line_no_newline fuel file _ s hs hnl
    obtain ⟨d, p, e, f⟩ := s
    simp only [] at hf
    subst hf
    simp only [IfStream.tellg, IfStream.good, Bool.not_true, Bool.and_false,
      Bool.false_eq_true, if_false, if_true, scan_line_failed]

/-! ## `combiner` and the range of `int` -/

/-- The loop of `combiner` computes `combineRecs` as long as no stored value is incremented
beyond `INT_MAX`: it suffices that the stored value plus the number of later records with its
key, and each later value plus the number of records with its key from it on, fit. -/
theorem combiner_loop_stored_count (fuel : Nat) (rs : List KeyValue) (back : KeyValue)
    (older : List KeyValue) (hb : back.key ≠ [])
    (hv : ∀ r ∈ rs, validRec r)
    (hback : back.value + (rs.countP (fun r => decide (r.key = back.key)) : Nat) ≤ INT_MAX)
    (hrest : ∀ x ∈ rs,
      x.value + (rs.countP (fun r => decide (r.key = x.key)) : Nat) ≤ INT_MAX + 1)
    (hfuel : rs.length + 2 ≤ fuel) :
    combiner_loop fuel ⟨'\n' :: encodeFile rs, false, false⟩ (back :: older) back.key
      = .done (older.reverse ++ combineRecs back rs) := by
  induction rs generalizing fuel back older with
  | nil =>
    obtain ⟨k, rfl⟩ : ∃ k, fuel = k + 2 := ⟨fuel - 2, by simp at hfuel; omega⟩
    have hrd := readKV_end ['\n'] nl_space
    have hb' : ¬ ([] : List Char) = back.key := fun h => hb h.symm
    simp [combiner_loop, encodeFile, hrd, hb', combineRecs]
  | cons r rs ih =>
    obtain ⟨k, rfl⟩ : ∃ k, fuel = k + 1 := ⟨fuel - 1, by simp at hfuel; omega⟩
    have hr : validRec r := hv r (List.mem_cons_self _ _)
    have hv' : ∀ x ∈ rs, validRec x := fun x hx => hv x (List.mem_cons_of_mem _ hx)
    have hrd := readKV_line ['\n'] r (encodeFile rs) nl_space hr
    have e : '\n' :: encodeFile (r :: rs) = ['\n'] ++ showLine r ++ encodeFile rs := by
      simp [encodeFile]
    simp only [List.length_cons] at hfuel
    have hrr := hrest r (List.mem_cons_self _ _)
    have hrs : ∀ x ∈ rs,
        x.value + (rs.countP (fun y => decide (y.key = x.key)) : Nat) ≤ INT_MAX + 1 := by
      intro x hx
      have := hrest x (List.mem_cons_of_mem _ hx)
      rw [List.countP_cons] at this
      push_cast at this
      split at this <;> omega
    rw [List.countP_cons] at hback hrr
    simp only [decide_True, if_true] at hrr
    push_cast at hback hrr
    simp only [combiner_loop, Bool.false_eq_true, if_false, combineRecs]
    rw [e, hrd]
    simp only []
    by_cases h1 : r.key = back.key
    · simp only [h1, decide_True, if_true] at hback
      have hmax : back.value ≠ INT_MAX := by omega
      rw [if_pos h1, if_neg hmax, if_pos h1]
      have := ih k ⟨back.key, back.value + 1⟩ older hb hv'
        (by simp only []; omega) hrs (by omega)
      simpa using this
    · rw [if_neg h1, if_neg h1]
      have hback' : back.value + (rs.countP (fun y => decide (y.key = back.key)) : Nat)
          ≤ INT_MAX := by
        simp only [h1, decide_False, Bool.false_eq_true, if_false] at hback
        omega
      by_cases h2 : r.value > 0
      · rw [if_pos h2, if_pos h2]
        have := ih k r (back :: older) (valid_key_ne r hr) hv' (by omega) hrs (by omega)
        simpa using this
      · rw [if_neg h2, if_neg h2]
        exact ih k back older hb hv' hback' hrs (by omega)

/-- The result of `combiner` on a file whose first record has a positive value, under the
range condition of `combiner_loop_stored_count`. -/
theorem combiner_eq_count (fuel : Nat) (r : KeyValue) (rs : List KeyValue)
    (hv : ∀ x ∈ r :: rs, validRec x) (hpos : r.value > 0)
    (hback : r.value + (rs.countP (fun y => decide (y.key = r.key)) : Nat) ≤ INT_MAX)
    (hrest : ∀ x ∈ rs,
      x.value + (rs.countP (fun y => decide (y.key = x.key)) : Nat) ≤ INT_MAX + 1)
    (hfuel : rs.length + 3 ≤ fuel) :
    combiner fuel (encodeFile (r :: rs)) = .done (encodeFile (combineRecs r rs)) := by
  obtain ⟨k, rfl⟩ : ∃ k, fuel = k + 1 := ⟨fuel - 1, by omega⟩
  have hr : validRec r := hv r (List.mem_cons_self _ _)
  have hv' : ∀ x ∈ rs, validRec x := fun x hx => hv x (List.mem_cons_of_mem _ hx)
  have hrd := readKV_line [] r (encodeFile rs) (by simp) hr
  have e : encodeFile (r :: rs) = [] ++ showLine r ++ encodeFile rs := by simp [encodeFile]
  have hk : ¬ r.key = [] := valid_key_ne r hr
  unfold combiner
  simp only [combiner_loop, IStream.open_, Bool.false_eq_true, if_false]
  rw [e, hrd]
  simp only []
  rw [if_neg hk, if_pos hpos,
    combiner_loop_stored_count k rs r [] hk hv' hback hrest (by omega)]
  simp [Run.map]

/-- When the records that follow all have the stored key and are more than the stored value
can still count, `value++` overflows. -/
theorem combiner_loop_overflow (fuel : Nat) (rs : List KeyValue) (back : KeyValue)
    (older : List KeyValue)
    (hv : ∀ r ∈ rs, validRec r) (hkey : ∀ r ∈ rs, r.key = back.key)
    (hle : back.value ≤ INT_MAX) (hover : INT_MAX < back.value + rs.length)
    (hfuel : rs.length ≤ fuel) :
    combiner_loop fuel ⟨'\n' :: encodeFile rs, false, false⟩ (back :: older) back.key
      = .undefined := by
  induction rs generalizing fuel back older with
  | nil =>
    simp only [List.length_nil] at hover
    push_cast at hover
    omega
  | cons r rs ih =>
    obtain ⟨k, rfl⟩ : ∃ k, fuel = k + 1 := ⟨fuel - 1, by simp at hfuel; omega⟩
    have hr : validRec r := hv r (List.mem_cons_self _ _)
    have hrd := readKV_line ['\n'] r (encodeFile rs) nl_space hr
    have e : '\n' :: encodeFile (r :: rs) = ['\n'] ++ showLine r ++ encodeFile rs := by
      simp [encodeFile]
    have h1 : r.key = back.key := hkey r (List.mem_cons_self _ _)
    simp only [List.length_cons] at hover hfuel
    push_cast at hover
    simp only [combiner_loop, Bool.false_eq_true, if_false]
    rw [e, hrd]
    simp only []
    rw [if_pos h1]
    by_cases hmax : back.value = INT_MAX
    · rw [if_pos hmax]
    · rw [if_neg hmax]
      exact ih k ⟨back.key, back.value + 1⟩ older
        (fun x hx => hv x (List.mem_cons_of_mem _ hx))
        (fun x hx => hkey x (List.mem_cons_of_mem _ hx))
        (by simp only []; omega) (by simp only []; omega) (by omega)

/-- The result of `combiner` on a file of `n` equal records with value 1, `n` above
`INT_MAX`: undefined behaviour. -/
theorem combiner_replicate_overflow (fuel n : Nat) (r : KeyValue) (hr : validRec r)
    (hone : r.value = 1) (hn : INT_MAX < (n : Int)) (hfuel : n ≤ fuel) :
    combiner fuel (encodeFile (List.replicate n r)) = .undefined := by
  obtain ⟨m, rfl⟩ : ∃ m, n = m + 1 := ⟨n - 1, by unfold INT_MAX at hn; omega⟩
  obtain ⟨k, rfl⟩ : ∃ k, fuel = k + 1 := ⟨fuel - 1, by omega⟩
  have hrd := readKV_line [] r (encodeFile (List.replicate m r)) (by simp) hr
  have e : encodeFile (List.replicate (m + 1) r)
      = [] ++ showLine r ++ encodeFile (List.replicate m r) := by
    rw [List.replicate_succ]; simp [encodeFile]
  have hk : ¬ r.key = [] := valid_key_ne r hr
  have hpos : r.value > 0 := by omega
  unfold combiner
  simp only [combiner_loop, IStream.open_, Bool.false_eq_true, if_false]
  rw [e, hrd]
  simp only []
  rw [if_neg hk, if_pos hpos,
    combiner_loop_overflow k (List.replicate m r) r []
      (fun x hx => by rw [List.eq_of_mem_replicate hx]; exact hr)
      (fun x hx => by rw [List.eq_of_mem_replicate hx])
      (by rw [hone]; decide)
      (by rw [hone, List.length_replicate]; push_cast at hn; omega)
      (by rw [List.length_replicate]; omega)]
  rfl

/-! ## `shuffle` when the target size does not fit an `int` -/

theorem cutParts_same_key (T : Int) (M : List KeyValue) (prev : List Char)
    (closed : List (List KeyValue)) (out : List KeyValue) (h : ∀ x ∈ M, x.key = prev) :
    cutParts T M prev closed out = closed ++ [out ++ M] := by
  induction M generalizing prev out with
  | nil => simp [cutParts]
  | cons r rs ih =>
    have hr : r.key = prev := h r (List.mem_cons_self _ _)
    have hc : ¬ (((encodeFile out).length : Int) > T ∧ prev ≠ r.key) :=
      fun hcon => hcon.2 hr.symm
    simp only [cutParts]
    rw [if_neg hc, ih r.key (out ++ [r])
      (fun x hx => by rw [h x (List.mem_cons_of_mem _ hx), hr])]
    simp

/-- With a negative target the first record already rolls over: the first partition file stays
empty. -/
theorem cutParts_negative_target (T : Int) (r : KeyValue) (rs : List KeyValue) (hT : T < 0)
    (hk : r.key ≠ []) (h : ∀ x ∈ rs, x.key = r.key) :
    cutParts T (r :: rs) [] [] [] = [[], r :: rs] := by
  have hc : ((encodeFile ([] : List KeyValue)).length : Int) > T ∧ ([] : List Char) ≠ r.key := by
    constructor
    · simp only [encodeFile, List.length_nil]
      push_cast
      omega
    · exact fun e => hk e.symm
  simp only [cutParts]
  rw [if_pos hc, cutParts_same_key T rs r.key _ _ h]
  simp

theorem encodeFile_replicate_length (n : Nat) (r : KeyValue) :
    (encodeFile (List.replicate n r)).length = n * (showLine r).length := by
  induction n with
  | zero => simp [encodeFile]
  | succ m ih =>
    rw [List.replicate_succ, encodeFile_cons_length, ih]
    ring

/-- The result of `shuffle` on one map file of `n` equal records when the target size wraps to
a negative `int`: an empty first partition file, then a file with all the records. -/
theorem shuffle_single_key_wrap (fuel R n : Nat) (r : KeyValue) (hR : 1 ≤ R) (hn : 0 < n)
    (hr : validRec r) (hT : toInt32 (n * (showLine r).length / R) < 0) (hfuel : n < fuel) :
    shuffle fuel R [encodeFile (List.replicate n r)]
      = .done [[], encodeFile (List.replicate n r)] := by
  have hv : ∀ f ∈ [List.replicate n r], ∀ x ∈ f, validRec x := by
    intro f hf x hx
    simp only [List.mem_singleton] at hf
    subst hf
    rw [List.eq_of_mem_replicate hx]; exact hr
  have hk : ∀ c ∈ [List.replicate n r], ∀ x ∈ c, x.key ≠ [] :=
    fun c hc x hx => valid_key_ne x (hv c hc x hx)
  have hlen : totalLen [List.replicate n r] = n := by simp [totalLen]
  have hM : mergeSeq fuel [List.replicate n r] = List.replicate n r := by
    have hp := mergeSeq_perm fuel [List.replicate n r] hk (by omega)
    simp only [List.flatten_cons, List.flatten_nil, List.append_nil] at hp
    exact List.perm_replicate.1 hp
  have hsum : (([List.replicate n r].map encodeFile).map List.length).sum
      = n * (showLine r).length := by
    simp [encodeFile_replicate_length]
  have hsh := shuffle_eq fuel R [List.replicate n r] hR (by simp) hv (by omega)
  simp only [List.map_cons, List.map_nil] at hsh
  rw [hsh]
  simp only [List.map_cons, List.map_nil] at hsum
  rw [hsum, hM]
  obtain ⟨m, rfl⟩ : ∃ m, n = m + 1 := ⟨n - 1, by omega⟩
  rw [List.replicate_succ, cutParts_negative_target _ r (List.replicate m r) hT
    (valid_key_ne r hr) (fun x hx => by rw [List.eq_of_mem_replicate hx])]
  simp [encodeFile]

/-! ## The claims at the limits of `int` and of the file -/

/-- C6 (counterexample). On the sorted map file of `2^31` records `"a 1"` the counter of the
key `a` stands at `INT_MAX` when the last record is read, and `kvs.back().value++` overflows
the `int`: `combiner` has undefined behaviour, and for no iteration budget does it return an
output (with the count `2^31` or any other). -/
theorem combiner_counts_overflow_counterexample :
    combiner 2147483650 (encodeFile (List.replicate 2147483648 ⟨['a'], 1⟩)) = .undefined ∧
      ¬ ∃ fuel out,
        combiner fuel (encodeFile (List.replicate 2147483648 ⟨['a'], 1⟩)) = .done out := by
  refine ⟨combiner_replicate_overflow 2147483650 2147483648 ⟨['a'], 1⟩ (by decide) rfl
    (by unfold INT_MAX; omega) (by omega), ?_⟩
  rintro ⟨fuel, out, h⟩
  have h2 := combiner_mono fuel 2147483648 _ (by rw [h]; exact fun e => by cases e)
  rw [h, combiner_replicate_overflow (fuel + 2147483648) 2147483648 ⟨['a'], 1⟩ (by decide) rfl
    (by unfold INT_MAX; omega) (by omega)] at h2
  cases h2

/-- C6 (amended). For every non-empty map file of valid records sorted by key in which every
record has value 1 and no key has more than `2^31 - 1` records, `combiner` returns and writes
back records with strictly increasing keys (each key once), whose keys are exactly the keys of
the input and whose values are the number of input records with that key. -/
theorem combiner_counts (fuel : Nat) (recs : List KeyValue)
    (hne : recs ≠ []) (hk : ∀ r ∈ recs, validKey r.key) (hone : ∀ r ∈ recs, r.value = 1)
    (hs : keySorted recs)
    (hcount : ∀ k, recs.countP (fun r => decide (r.key = k)) < 2147483648)
    (hfuel : recs.length + 2 ≤ fuel) :
    ∃ out : List KeyValue, combiner fuel (encodeFile recs) = .done (encodeFile out) ∧
      keyStrict out ∧
      (∀ k, k ∈ out.map KeyValue.key ↔ k ∈ recs.map KeyValue.key) ∧
      ∀ x ∈ out, x.value = (recs.countP (fun r => decide (r.key = x.key)) : Nat) := by
  cases recs with
  | nil => exact absurd rfl hne
  | cons r rs =>
    have hr1 : r.value = 1 := hone r (List.mem_cons_self _ _)
    have hone' : ∀ x ∈ rs, x.value = 1 := fun x hx => hone x (List.mem_cons_of_mem _ hx)
    have hv : ∀ x ∈ r :: rs, validRec x := by
      intro x hx
      refine ⟨hk x hx, ?_, ?_⟩ <;> rw [hone x hx] <;> decide
    have hc : ∀ k, rs.countP (fun y => decide (y.key = k)) < 2147483648 := by
      intro k
      have h1 := hcount k
      rw [List.countP_cons] at h1
      omega
    have hback : r.value + (rs.countP (fun y => decide (y.key = r.key)) : Nat) ≤ INT_MAX := by
      have h1 := hcount r.key
      rw [List.countP_cons] at h1
      simp only [decide_True, if_true] at h1
      rw [hr1]
      unfold INT_MAX
      omega
    have hrest : ∀ x ∈ rs,
        x.value + (rs.countP (fun y => decide (y.key = x.key)) : Nat) ≤ INT_MAX + 1 := by
      intro x hx
      have h1 := hc x.key
      rw [hone' x hx]
      unfold INT_MAX
      omega
    simp only [List.length_cons] at hfuel
    refine ⟨combineRecs r rs, combiner_eq_count fuel r rs hv (by omega) hback hrest (by omega),
      combineRecs_keyStrict r rs hs, ?_, ?_⟩
    · intro k
      rw [combineRecs_keys r rs (fun x hx => by rw [hone' x hx]; decide) k]
      simp
    · intro x hx
      rw [combineRecs_count r rs hone' hs x hx, List.countP_cons, hr1]
      by_cases hxr : x.key = r.key
      · simp [hxr]; ring
      · have : ¬ r.key = x.key := fun e => hxr e.symm
        simp [hxr, this]

theorem combiner_counts_witness :
    ∃ out : List KeyValue,
      combiner 10 (encodeFile [⟨['a'], 1⟩, ⟨['a'], 1⟩, ⟨['b'], 1⟩]) = .done (encodeFile out) ∧
      keyStrict out ∧
      (∀ k, k ∈ out.map KeyValue.key ↔
        k ∈ [(⟨['a'], 1⟩ : KeyValue), ⟨['a'], 1⟩, ⟨['b'], 1⟩].map KeyValue.key) ∧
      ∀ x ∈ out, x.value
        = ([(⟨['a'], 1⟩ : KeyValue), ⟨['a'], 1⟩, ⟨['b'], 1⟩].countP
            (fun r => decide (r.key = x.key)) : Nat) :=
  combiner_counts 10 [⟨['a'], 1⟩, ⟨['a'], 1⟩, ⟨['b'], 1⟩]
    (by decide) (by decide) (by decide) (by decide)
    (fun _ => lt_of_le_of_lt (List.countP_le_length _) (by decide)) (by decide)

/-- C7 (the code at a failing input). With `reducers_count = 1` and one sorted map file of
`2^29` records `"a 1"` (`2^31` bytes) the target `total_size / reducers_count = 2^31` does not
fit the `int r_file_size` and becomes `-2^31`; the test `out.tellp() > r_file_size` then holds
on the empty file `reduce_0` before the first record, and `shuffle` moves on to a second
partition file: it creates two files, the first one empty, for every iteration budget above
the number of records. -/
theorem shuffle_int_target_two_partitions (k : Nat) :
    shuffle (536870913 + k) 1 [encodeFile (List.replicate 536870912 ⟨['a'], 1⟩)]
        = .done [[], encodeFile (List.replicate 536870912 ⟨['a'], 1⟩)] ∧
      ¬ ([([] : List Char), encodeFile (List.replicate 536870912 ⟨['a'], 1⟩)].length ≤ 1) := by
  refine ⟨shuffle_single_key_wrap _ 1 536870912 ⟨['a'], 1⟩ (by decide) (by decide) (by decide)
    (by decide) (by omega), ?_⟩
  intro h
  simp only [List.length_cons, List.length_nil] at h
  omega

/-- C8 (the code at a failing input). On the 7-byte file `"ab\ncdef"` (last line without
terminator) with 3 mappers the first two iterations of the loop produce the blocks `[0, 3)`
and `[3, 2^64 - 1)`: the second scan reaches the end of the file and `tellg()` returns `-1`,
so the end of block 1, which is not the last block, is not after a line terminator.  The
stream stays failed and the third scan never ends: `split_file` does not return, for any
iteration budget. -/
theorem split_file_inner_boundary_at_eof (fuel k : Nat) :
    split_loop (10 + k) 7 3 2 0 ⟨0, 0⟩ ⟨['a', 'b', '\n', 'c', 'd', 'e', 'f'], 0, false, false⟩ []
        = .done [⟨0, 3⟩, ⟨3, 18446744073709551615⟩] ∧
      ¬ afterNewline ['a', 'b', '\n', 'c', 'd', 'e', 'f'] ⟨3, 18446744073709551615⟩ ∧
      split_file fuel ['a', 'b', '\n', 'c', 'd', 'e', 'f'] 3 = .nofuel := by
  refine ⟨split_loop_mono 10 k _ _ _ _ _ _ _ _ (by decide), by decide, ?_⟩
  by_cases hf : fuel < 4
  · interval_cases fuel <;> decide
  · obtain ⟨j, rfl⟩ : ∃ j, fuel = 4 + j := ⟨fuel - 4, by omega⟩
    have h1 : scan_line (4 + j) ⟨['a', 'b', '\n', 'c', 'd', 'e', 'f'], 2, false, false⟩
        = .done ⟨['a', 'b', '\n', 'c', 'd', 'e', 'f'], 3, false, false⟩ :=
      scan_line_mono 4 j _ _ (by decide)
    have h2 : scan_line (4 + j) ⟨['a', 'b', '\n', 'c', 'd', 'e', 'f'], 4, false, false⟩
        = .done ⟨['a', 'b', '\n', 'c', 'd', 'e', 'f'], 7, true, true⟩ :=
      scan_line_mono 4 j _ _ (by decide)
    simp only [split_file, split_loop, List.length_cons, List.length_nil, Nat.zero_add,
      Nat.reduceAdd, gt_iff_lt, Nat.ofNat_pos, if_true, IfStream.seekg, Bool.false_eq_true,
      if_false, Nat.reduceDiv, Nat.reduceMul, h1, h2, IfStream.tellg, IfStream.good,
      Bool.not_true, Bool.not_false, Bool.and_self, scan_line_failed]

/-- When every nominal boundary `floor(S / n) * k` with `1 <= k < n` has a line terminator at
or after it, `split_file` returns (for an iteration budget above the file size) `n` blocks,
and every block but the last ends right after a line terminator. -/
theorem split_file_returns_aligned_blocks (fuel : Nat) (file : List Char) (n : Nat)
    (hS : 0 < file.length)
    (hnl : ∀ k, 1 ≤ k → k < n → '\n' ∈ file.drop (file.length / n * k))
    (hfuel : file.length + 1 ≤ fuel) :
    ∃ blocks : List Block, split_file fuel file n = .done blocks ∧ blocks.length = n ∧
      ∀ b ∈ blocks.dropLast, afterNewline file b := by
  obtain ⟨res, hres⟩ := split_loop_total fuel n file n 0 ⟨0, 0⟩ ⟨file, 0, false, false⟩ []
    rfl rfl hfuel (fun i _ hi => hnl (i + 1) (by omega) (by omega))
  refine ⟨res, ?_, ?_, ?_⟩
  · unfold split_file
    rw [if_pos hS]
    exact hres
  · simpa using split_loop_length _ _ _ _ _ _ _ _ _ hres
  · exact split_loop_boundaries fuel file.length n file n 0 ⟨0, 0⟩ ⟨file, 0, false, false⟩ []
      res rfl (by simp) (by simp) hres

/-- C11 (counterexample). On the 7-byte file `"a\nb\nc\nd"` with 4 mappers block 2 ends at
offset 4, while the first line terminator at an offset `>= floor(7 * 3 / 4) = 5` is at offset
5, which would put the end at 6: the scan does not start from `floor(S * k / n)`.  On the
4-byte file `"xy\nz"` with 2 mappers no line terminator lies at an offset `>= floor(4 * 2 / 2)`,
so the claim puts the end of block 1 at `S = 4`, while the block ends at `2^64 - 1`.  On the
6-byte file `"abcdef"` with 3 mappers there is no line terminator at all, so the claim puts
the end of block 0 at `S = 6`, while `split_file` returns no block for any iteration budget. -/
theorem split_file_nominal_boundary_counterexample :
    (split_file 10 ['a', '\n', 'b', '\n', 'c', '\n', 'd'] 4
        = .done [⟨0, 2⟩, ⟨2, 4⟩, ⟨4, 4⟩, ⟨4, 6⟩] ∧
      past_newline_from ['a', '\n', 'b', '\n', 'c', '\n', 'd'] (7 * 3 / 4) = 6 ∧
      ¬ ((⟨4, 4⟩ : Block).to_
          = past_newline_from ['a', '\n', 'b', '\n', 'c', '\n', 'd'] (7 * 3 / 4))) ∧
    (split_file 10 ['x', 'y', '\n', 'z'] 2 = .done [⟨0, 3⟩, ⟨3, 18446744073709551615⟩] ∧
      past_newline_from ['x', 'y', '\n', 'z'] (4 * 2 / 2) = 4 ∧
      ¬ ((⟨3, 18446744073709551615⟩ : Block).to_
          = past_newline_from ['x', 'y', '\n', 'z'] (4 * 2 / 2))) ∧
    ¬ ∃ fuel blocks, split_file fuel ['a', 'b', 'c', 'd', 'e', 'f'] 3 = .done blocks := by
  refine ⟨by decide, by decide, ?_⟩
  rintro ⟨fuel, blocks, h⟩
  rw [split_file_no_return fuel ['a', 'b', 'c', 'd', 'e', 'f'] 3 (by decide) (by decide)
    (by decide)] at h
  cases h

/-- C11 (amended). For every input file of size `S > 0` and every `mappers_count = n` such
that each nominal boundary `floor(S / n) * k` with `1 <= k < n` has a `'\n'` at an offset at or
after it, `split_file` returns (for an iteration budget above the file size) `n` blocks, and
for every `k` in `1..n-1` the end of block `k - 1` is the offset just past the first `'\n'`
located at an offset `>= floor(S / n) * k`: the nominal boundary that is scanned forward from
is `floor(S / n) * k`. -/
theorem split_file_inner_block_ends (fuel : Nat) (file : List Char) (n : Nat)
    (hS : 0 < file.length)
    (hnl : ∀ k, 1 ≤ k → k < n → '\n' ∈ file.drop (file.length / n * k))
    (hfuel : file.length + 1 ≤ fuel) :
    ∃ blocks : List Block, split_file fuel file n = .done blocks ∧ blocks.length = n ∧
      ∀ k, 1 ≤ k → k < n →
        ∃ b, blocks[k - 1]? = some b ∧ b.to_ = past_newline_from file (file.length / n * k) := by
  obtain ⟨res, hres⟩ := split_loop_total fuel n file n 0 ⟨0, 0⟩ ⟨file, 0, false, false⟩ []
    rfl rfl hfuel (fun i _ hi => hnl (i + 1) (by omega) (by omega))
  have hlen : res.length = n := by simpa using split_loop_length _ _ _ _ _ _ _ _ _ hres
  refine ⟨res, ?_, hlen, ?_⟩
  · unfold split_file
    rw [if_pos hS]
    exact hres
  · intro k hk1 hkn
    have hlt : k - 1 < res.length := by omega
    refine ⟨res[k - 1], List.getElem?_eq_getElem hlt, ?_⟩
    have h := (split_loop_ends fuel n file n 0 ⟨0, 0⟩ ⟨file, 0, false, false⟩ [] res rfl rfl
      hres (k - 1) res[k - 1] (List.getElem?_eq_getElem hlt)).2 (Nat.zero_le _)
    rw [Nat.sub_add_cancel hk1] at h
    exact h (hnl k hk1 hkn)

theorem split_file_inner_block_ends_witness :
    ∃ blocks : List Block,
      split_file 10 ['a', '\n', 'b', '\n', 'c', '\n', 'd'] 4 = .done blocks ∧
      blocks.length = 4 ∧
      ∀ k, 1 ≤ k → k < 4 →
        ∃ b, blocks[k - 1]? = some b ∧
          b.to_ = past_newline_from ['a', '\n', 'b', '\n', 'c', '\n', 'd']
            (['a', '\n', 'b', '\n', 'c', '\n', 'd'].length / 4 * k) :=
  split_file_inner_block_ends 10 ['a', '\n', 'b', '\n', 'c', '\n', 'd'] 4 (by decide)
    (by
      intro k hk1 hk4
      interval_cases k <;> decide)
    (by decide)

/-- C19 (the code at a failing input). With `reducers_count = 2` and one sorted map file of
`2^30` records `"a 1"` (`2^32` bytes) the target `total_size / reducers_count = 2^31` does not
fit the `int r_file_size` and becomes `-2^31`: `shuffle` leaves the first partition file,
which is not the last, empty and writes every record to the second, for every iteration
budget above the number of records.  The size of the first file, 0, is not larger than the
target size. -/
theorem shuffle_int_target_empty_partition (k : Nat) :
    shuffle (1073741825 + k) 2 [encodeFile (List.replicate 1073741824 ⟨['a'], 1⟩)]
        = .done [[], encodeFile (List.replicate 1073741824 ⟨['a'], 1⟩)] ∧
      ¬ ((encodeFile (List.replicate 1073741824 ⟨['a'], 1⟩)).length / 2
          < ([] : List Char).length) := by
  refine ⟨shuffle_single_key_wrap _ 2 1073741824 ⟨['a'], 1⟩ (by decide) (by decide)
    (by decide) (by decide) (by omega), ?_⟩
  exact Nat.not_lt_zero _

end MapReduce
